import Mathlib

/-!
Verification of the format-conversion and event-notification core of the
demo server (src/demo/server.js): the record codec (CSV / JSON / XML),
the transform pipeline, the in-memory transaction store, the topic-based
event bus and the debounced directory watcher.

JavaScript strings are modelled as lists of Unicode scalar values
(`Str := List Char`); JavaScript objects are modelled as ordered
association lists with JavaScript assignment semantics (`jsSetV`:
assigning to an existing key overwrites the value in place, assigning a
fresh key appends it).  All definitions are translated directly from the
source; fallible parsing is modelled with `Except` / `Option`.
-/

set_option linter.unusedVariables false

namespace Demo

/-- JavaScript strings, modelled as lists of Unicode scalar values. -/
abbrev Str := List Char

/-- A canonical record: an ordered mapping from field name to field value,
field order reflecting source-document encounter order (a JS object with
string values). -/
abbrev Rec := List (Str × Str)

/-- An ordered sequence of records. -/
abbrev RecordSet := List Rec

/-- JavaScript object property write `o[k] = v` (generic in the value
type): overwrite in place when the key is already present, append
otherwise.  Property order of a JS object is first-assignment order. -/
def jsSetV {α : Type} (o : List (Str × α)) (k : Str) (v : α) : List (Str × α) :=
  if k ∈ o.map Prod.fst then
    o.map (fun p => if p.1 = k then (p.1, v) else p)
  else o ++ [(k, v)]

/-- JavaScript object property read `o[k]`. -/
def jsGet {α : Type} (o : List (Str × α)) (k : Str) : Option α :=
  match o with
  | [] => none
  | p :: t => if p.1 = k then some p.2 else jsGet t k

/-- The keys of a modelled JS object, in property order. -/
def keysOf {α : Type} (o : List (Str × α)) : List Str := o.map Prod.fst

/-- Whitespace for JavaScript `String.prototype.trim` (ECMAScript
WhiteSpace and LineTerminator code points), by code point: tab, line
feed, vertical tab, form feed, carriage return, space, no-break space,
Ogham space mark, the U+2000 range, line and paragraph separators,
narrow no-break space, medium mathematical space, ideographic space and
the byte-order mark. -/
def isJsWs (c : Char) : Bool :=
  c.toNat = 9 ∨ c.toNat = 10 ∨ c.toNat = 11 ∨ c.toNat = 12 ∨ c.toNat = 13 ∨
  c.toNat = 32 ∨ c.toNat = 0xa0 ∨ c.toNat = 0x1680 ∨
  (0x2000 ≤ c.toNat ∧ c.toNat ≤ 0x200a) ∨
  c.toNat = 0x2028 ∨ c.toNat = 0x2029 ∨ c.toNat = 0x202f ∨ c.toNat = 0x205f ∨
  c.toNat = 0x3000 ∨ c.toNat = 0xfeff

/-- JavaScript `s.trim()`: drop leading and trailing whitespace. -/
def jsTrim (s : Str) : Str :=
  ((s.dropWhile isJsWs).reverse.dropWhile isJsWs).reverse

/-- JavaScript `s.split(/\r?\n/)`: split on line feeds, a line feed
consuming one immediately preceding carriage return; a lone carriage
return does not split. -/
def splitLinesRe : Str → List Str
  | [] => [[]]
  | '\r' :: '\n' :: t => [] :: splitLinesRe t
  | '\n' :: t => [] :: splitLinesRe t
  | c :: t =>
    match splitLinesRe t with
    | [] => [[c]]
    | h :: r => (c :: h) :: r

/-- JavaScript `s.split(',')` (keeps empty cells, including trailing
ones). -/
def splitComma : Str → List Str
  | [] => [[]]
  | ',' :: t => [] :: splitComma t
  | c :: t =>
    match splitComma t with
    | [] => [[c]]
    | h :: r => (c :: h) :: r

/-- The body of one data row of `csvToRecords`:
`headers.forEach((h, i) => obj[h] = vals[i] || '')` — positional zip
against the headers, walking both lists in step (the i-th cell is the
head after i tails), with a missing trailing cell (and an empty cell,
which is falsy) both yielding the empty string. -/
def buildCsvRecAux (o : Rec) : List Str → List Str → Rec
  | [], _ => o
  | h :: hs, vals => buildCsvRecAux (jsSetV o h (vals.headD [])) hs vals.tail

/-- One data row of `csvToRecords`, starting from the empty object. -/
def buildCsvRec (headers vals : List Str) : Rec :=
  buildCsvRecAux [] headers vals

/-- `csvToRecords` from src/demo/server.js: trim the input, split into
lines on `/\r?\n/`, trim each line and drop blank ones; fewer than two
lines yield no records; otherwise the first line comma-split and trimmed
is the header and every further line is comma-split, trimmed per cell and
zipped positionally against the header. -/
def csvToRecords (csv : Str) : RecordSet :=
  let lines := ((splitLinesRe (jsTrim csv)).map jsTrim).filter (fun l => l ≠ [])
  if lines.length < 2 then []
  else
    let headers := (splitComma (lines.headD [])).map jsTrim
    (lines.drop 1).map (fun line => buildCsvRec headers ((splitComma line).map jsTrim))

/-- `recordsToCsv` from src/demo/server.js: the header row is the key
sequence of the first record; each record row looks up every header key,
substituting the empty string when absent (`r[h] ?? ''`); rows are joined
with line feeds. -/
def recordsToCsv (records : RecordSet) : Str :=
  match records with
  | [] => []
  | r0 :: _ =>
    let headers := keysOf r0
    let rows := records.map (fun r =>
      List.intercalate [','] (headers.map (fun h => (jsGet r h).getD [])))
    List.intercalate ['\n'] (List.intercalate [','] headers :: rows)

/-- `escXml` applied to one character: the three global replaces
(ampersand first, then the angle brackets) amount to a per-character
substitution. -/
def escXmlChar (c : Char) : Str :=
  if c = '&' then "&amp;".toList
  else if c = '<' then "&lt;".toList
  else if c = '>' then "&gt;".toList
  else [c]

/-- `escXml` from src/demo/server.js. -/
def escXml : Str → Str
  | [] => []
  | c :: t => escXmlChar c ++ escXml t

/-- One `    <k>v</k>` line emitted by `recordsToXml`. -/
def xmlFieldLine (p : Str × Str) : Str :=
  "    <".toList ++ p.1 ++ [ '>' ] ++ escXml p.2 ++ "</".toList ++ p.1 ++ ">\n".toList

/-- One `  <transaction> ... </transaction>` block emitted by
`recordsToXml`. -/
def xmlItem (r : Rec) : Str :=
  "  <transaction>\n".toList ++ (r.map xmlFieldLine).flatten ++ "  </transaction>\n".toList

/-- `recordsToXml` from src/demo/server.js, at its default root and item
tags (`transactions` / `transaction`), the only ones the server uses. -/
def recordsToXml (records : RecordSet) : Str :=
  "<?xml version=\"1.0\" encoding=\"UTF-8\"?>\n<transactions>\n".toList ++
  (records.map xmlItem).flatten ++ "</transactions>".toList

/-- First occurrence of `pat` in `s`: `some (before, after)` where
`s = before ++ pat ++ after` and `pat` occurs nowhere earlier. -/
def findSub (pat : Str) : Str → Option (Str × Str)
  | [] => if pat.isPrefixOf ([] : Str) then some ([], []) else none
  | c :: t =>
    if pat.isPrefixOf (c :: t) then some ([], (c :: t).drop pat.length)
    else
      match findSub pat t with
      | none => none
      | some (a, b) => some (c :: a, b)

/-- ASCII lower-casing of one character, by code point
(`String.prototype.toLowerCase`, and the `i`-flag canonicalization of a
lower-case ASCII regex pattern, both restricted to the characters these
endpoints compare: outside A-Z the relevant canonicalizations are the
identity). -/
def charLower (c : Char) : Char :=
  if 65 ≤ c.toNat ∧ c.toNat ≤ 90 then Char.ofNat (c.toNat + 32) else c

/-- `format.toLowerCase()`. -/
def jsToLower (s : Str) : Str := s.map charLower

/-- Case-insensitive prefix test of a lower-case ASCII pattern, as the
`i` flag of `itemRe` canonicalizes its characters: a subject character
matches a pattern character when it lower-cases to it. -/
def isPrefixOfCI : Str → Str → Bool
  | [], _ => true
  | _ :: _, [] => false
  | p :: ps, c :: cs => (charLower c == p) && isPrefixOfCI ps cs

/-- First case-insensitive occurrence of the lower-case pattern `pat` in
`s`, as the `gi` exec loop of `itemRe` locates the item tags. -/
def findSubCI (pat : Str) : Str → Option (Str × Str)
  | [] => if isPrefixOfCI pat ([] : Str) then some ([], []) else none
  | c :: t =>
    if isPrefixOfCI pat (c :: t) then some ([], (c :: t).drop pat.length)
    else
      match findSubCI pat t with
      | none => none
      | some (a, b) => some (c :: a, b)

/-- The item-element open tag matched by `xmlToRecords`. -/
def xmlOpenTag : Str := "<transaction>".toList

/-- The item-element close tag matched by `xmlToRecords`. -/
def xmlCloseTag : Str := "</transaction>".toList

/-- The `itemRe = /<transaction>([\s\S]*?)<\/transaction>/gi` exec loop
of `xmlToRecords`: repeatedly take the lazily matched text between the
next `<transaction>` and the first `</transaction>` after it, both tags
matched case-insensitively (the `i` flag).  Each iteration consumes at
least the open tag, so fuel `length + 1` never runs out. -/
def xmlItems : Nat → Str → List Str
  | 0, _ => []
  | fuel + 1, s =>
    match findSubCI xmlOpenTag s with
    | none => []
    | some (_, rest) =>
      match findSubCI xmlCloseTag rest with
      | none => []
      | some (content, rest2) => content :: xmlItems fuel rest2

/-- A JavaScript `\w` character (ASCII word character: a letter, a
digit or an underscore), by code point. -/
def isWordChar (c : Char) : Bool :=
  (97 ≤ c.toNat ∧ c.toNat ≤ 122) ∨ (65 ≤ c.toNat ∧ c.toNat ≤ 90) ∨
  (48 ≤ c.toNat ∧ c.toNat ≤ 57) ∨ c.toNat = 95

/-- One step of the `fieldRe = /<(\w+)>([\s\S]*?)<\/\1>/g` exec loop:
scan left to right for a position matching `<` + word run + `>`, then the
lazily shortest body followed by the matching close tag; a position
without a later matching close tag is skipped and scanning resumes one
character further, exactly as regex backtracking does. -/
def findField : Str → Option (Str × Str × Str)
  | [] => none
  | c :: t =>
    if c = '<' then
      let w := t.takeWhile isWordChar
      match t.dropWhile isWordChar with
      | '>' :: body =>
        if w = [] then findField t
        else
          match findSub ("</".toList ++ w ++ [ '>' ]) body with
          | some (v, rest) => some (w, v, rest)
          | none => findField t
      | _ => findField t
    else findField t

/-- The `fieldRe` exec loop of `xmlToRecords`, collecting every
key/value pair in an item body.  Each match consumes at least seven
characters, so fuel `length + 1` never runs out. -/
def xmlFields : Nat → Str → List (Str × Str)
  | 0, _ => []
  | fuel + 1, s =>
    match findField s with
    | none => []
    | some (k, v, rest) => (k, v) :: xmlFields fuel rest

/-- One record of `xmlToRecords`: `obj[f[1]] = f[2].trim()` over every
field match in the item body. -/
def recOfXmlItem (content : Str) : Rec :=
  (xmlFields (content.length + 1) content).foldl
    (fun o p => jsSetV o p.1 (jsTrim p.2)) []

/-- `xmlToRecords` from src/demo/server.js: extract every
`<transaction>...</transaction>` occurrence, then every
`<k>v</k>` field inside it, trimming field values. -/
def xmlToRecords (xml : Str) : RecordSet :=
  (xmlItems (xml.length + 1) xml).map recOfXmlItem

/-- Hexadecimal digit character (lower case), as emitted by
`JSON.stringify` in `\u00xx` escapes. -/
def hexDigitChar (n : Nat) : Char :=
  if n < 10 then Char.ofNat (48 + n) else Char.ofNat (87 + n)

/-- The escaping `JSON.stringify` applies to one character of a string:
quote and backslash get a backslash escape, the five control characters
with short escapes use them, the remaining control characters become
`\u00xx`, everything else is kept verbatim. -/
def escJsonChar (c : Char) : Str :=
  if c = '"' then [ '\\', '"' ]
  else if c = '\\' then [ '\\', '\\' ]
  else if c = '\x08' then [ '\\', 'b' ]
  else if c = '\t' then [ '\\', 't' ]
  else if c = '\n' then [ '\\', 'n' ]
  else if c = '\x0c' then [ '\\', 'f' ]
  else if c = '\r' then [ '\\', 'r' ]
  else if c.toNat < 32 then
    [ '\\', 'u', '0', '0', hexDigitChar (c.toNat / 16), hexDigitChar (c.toNat % 16) ]
  else [c]

/-- String-body escaping of `JSON.stringify`. -/
def escJson : Str → Str
  | [] => []
  | c :: t => escJsonChar c ++ escJson t

/-- A quoted JSON string literal. -/
def jsonQuoted (s : Str) : Str := '"' :: escJson s ++ [ '"' ]

/-- One `"key": "value"` member as printed by `JSON.stringify` with
indent 2. -/
def jsonMember (p : Str × Str) : Str := jsonQuoted p.1 ++ [ ':', ' ' ] ++ jsonQuoted p.2

/-- One record as printed by `JSON.stringify(records, null, 2)`: an
object at nesting depth 1 (members indented four spaces, closing brace
indented two). -/
def jsonRecordStr (r : Rec) : Str :=
  match r with
  | [] => [ '{', '}' ]
  | _ =>
    [ '{', '\n', ' ', ' ', ' ', ' ' ] ++
    List.intercalate [ ',', '\n', ' ', ' ', ' ', ' ' ] (r.map jsonMember) ++
    [ '\n', ' ', ' ', '}' ]

/-- `JSON.stringify(records, null, 2)` for a record set (the exact form
used by the transform pipeline and the structured-document export). -/
def jsonStringifyRecords (records : RecordSet) : Str :=
  match records with
  | [] => [ '[', ']' ]
  | _ =>
    [ '[', '\n', ' ', ' ' ] ++
    List.intercalate [ ',', '\n', ' ', ' ' ] (records.map jsonRecordStr) ++
    [ '\n', ']' ]

/-- JSON insignificant whitespace (space, tab, line feed, carriage
return), as skipped by `JSON.parse`. -/
def isJsonWs (c : Char) : Bool :=
  c = ' ' ∨ c = '\t' ∨ c = '\n' ∨ c = '\r'

/-- Skip JSON insignificant whitespace. -/
def skipWs (s : Str) : Str := s.dropWhile isJsonWs

/-- Value of one hexadecimal digit (JSON accepts both cases). -/
def hexDigitVal (c : Char) : Option Nat :=
  if '0' ≤ c ∧ c ≤ '9' then some (c.toNat - 48)
  else if 'a' ≤ c ∧ c ≤ 'f' then some (c.toNat - 87)
  else if 'A' ≤ c ∧ c ≤ 'F' then some (c.toNat - 55)
  else none

/-- JSON string-body scanner (after the opening quote): returns the
decoded body and the text after the closing quote; an invalid escape, an
unescaped control character or a missing closing quote is a syntax
error. -/
def parseJsonStr : Str → Option (Str × Str)
  | [] => none
  | '"' :: t => some ([], t)
  | '\\' :: '"' :: t => (parseJsonStr t).map (fun p => ('"' :: p.1, p.2))
  | '\\' :: '\\' :: t => (parseJsonStr t).map (fun p => ('\\' :: p.1, p.2))
  | '\\' :: '/' :: t => (parseJsonStr t).map (fun p => ('/' :: p.1, p.2))
  | '\\' :: 'b' :: t => (parseJsonStr t).map (fun p => ('\x08' :: p.1, p.2))
  | '\\' :: 'f' :: t => (parseJsonStr t).map (fun p => ('\x0c' :: p.1, p.2))
  | '\\' :: 'n' :: t => (parseJsonStr t).map (fun p => ('\n' :: p.1, p.2))
  | '\\' :: 'r' :: t => (parseJsonStr t).map (fun p => ('\r' :: p.1, p.2))
  | '\\' :: 't' :: t => (parseJsonStr t).map (fun p => ('\t' :: p.1, p.2))
  | '\\' :: 'u' :: h1 :: h2 :: h3 :: h4 :: t =>
    match hexDigitVal h1, hexDigitVal h2, hexDigitVal h3, hexDigitVal h4 with
    | some a, some b, some c, some d =>
      (parseJsonStr t).map
        (fun p => (Char.ofNat (4096 * a + 256 * b + 16 * c + d) :: p.1, p.2))
    | _, _, _, _ => none
  | '\\' :: _ => none
  | c :: t =>
    if c.toNat < 32 then none
    else (parseJsonStr t).map (fun p => (c :: p.1, p.2))

/-- Object-member loop of the JSON reader, positioned at the opening
quote of a key; members are accumulated with JS object assignment
(duplicate keys overwrite in place, as in `JSON.parse`).  Each member
consumes at least one character, so fuel `length + 1` never runs out. -/
def parseJsonMembers : Nat → Str → Rec → Option (Rec × Str)
  | 0, _, _ => none
  | fuel + 1, s, acc =>
    match s with
    | '"' :: t =>
      match parseJsonStr t with
      | none => none
      | some (k, r1) =>
        match skipWs r1 with
        | ':' :: r2 =>
          match skipWs r2 with
          | '"' :: r3 =>
            match parseJsonStr r3 with
            | none => none
            | some (v, r4) =>
              match skipWs r4 with
              | ',' :: r5 => parseJsonMembers fuel (skipWs r5) (jsSetV acc k v)
              | '}' :: r5 => some (jsSetV acc k v, r5)
              | _ => none
          | _ => none
        | _ => none
    | _ => none

/-- One JSON object with string values, positioned at its opening
brace. -/
def parseJsonRecord (fuel : Nat) (s : Str) : Option (Rec × Str) :=
  match s with
  | '{' :: t =>
    match skipWs t with
    | '}' :: r => some ([], r)
    | t2 => parseJsonMembers fuel t2 []
  | _ => none

/-- Array-element loop of the JSON reader, positioned at the opening
brace of an element. -/
def parseJsonElems : Nat → Str → RecordSet → Option (RecordSet × Str)
  | 0, _, _ => none
  | fuel + 1, s, acc =>
    match parseJsonRecord fuel s with
    | none => none
    | some (r, rest) =>
      match skipWs rest with
      | ',' :: r2 => parseJsonElems fuel (skipWs r2) (acc ++ [r])
      | ']' :: r2 => some (acc ++ [r], r2)
      | _ => none

/-- `JSON.parse`, modelled on the canonical record-set shape: an array
of objects whose values are strings — the only JSON shape the pipeline
produces and consumes.  Malformed input fails with a message carrying
the cause, exactly where `JSON.parse` raises a SyntaxError; well-formed
JSON outside this shape (numbers, nesting, bare objects) is likewise
reported as an error here, a divergence from `JSON.parse` that no claim
in this development touches. -/
def jsonParseRecords (s : Str) : Except Str RecordSet :=
  match skipWs s with
  | '[' :: t =>
    match skipWs t with
    | ']' :: r =>
      if skipWs r = [] then Except.ok []
      else Except.error "unexpected text after the document".toList
    | t2 =>
      match parseJsonElems (s.length + 1) t2 [] with
      | some (rs, rest) =>
        if skipWs rest = [] then Except.ok rs
        else Except.error "unexpected text after the document".toList
      | none => Except.error "malformed structured document".toList
  | _ => Except.error "expected an array of records".toList

/-- `parseFile` from src/demo/server.js: dispatch on the file extension;
unknown extensions yield `null` (here `none`); only the structured
document format can fail. -/
def parseFile (content : Str) (ext : Str) : Option (Except Str RecordSet) :=
  if ext = ".csv".toList then some (Except.ok (csvToRecords content))
  else if ext = ".json".toList then some (jsonParseRecords content)
  else if ext = ".xml".toList then some (Except.ok (xmlToRecords content))
  else none

/-- The `conversions` table of `handleFileTransform`. -/
def conversionsFor (ext : Str) : List Str :=
  if ext = ".csv".toList then [ ".json".toList, ".xml".toList ]
  else if ext = ".json".toList then [ ".csv".toList, ".xml".toList ]
  else if ext = ".xml".toList then [ ".csv".toList, ".json".toList ]
  else []

/-- Serialization for one conversion target inside the `forEach` of
`handleFileTransform`. -/
def serializeAs (target : Str) (records : RecordSet) : Str :=
  if target = ".json".toList then jsonStringifyRecords records
  else if target = ".csv".toList then recordsToCsv records
  else recordsToXml records

/-- The conversion `forEach` of `handleFileTransform` with
`fs.writeFileSync` failures made explicit by an oracle on the output
file name.  The loop body has no try/catch, so a throwing write aborts
the whole `forEach`: the result is the list of files actually written
(those before the failure) and whether the loop ran to completion — the
publish after the loop happens only in that case. -/
def writeOutputs (base : Str) (records : RecordSet) (writeOk : Str → Bool) :
    List Str → List (Str × Str) × Bool
  | [] => ([], true)
  | target :: rest =>
    let outFile := base ++ target
    if writeOk outFile then
      let r := writeOutputs base records writeOk rest
      ((outFile, serializeAs target records) :: r.1, r.2)
    else ([], false)

/-- `handleFileTransform` from src/demo/server.js, for a file with the
given base name, extension and content: unknown extensions and parse
failures are skipped (the parse failure is caught and logged), an empty
record set is skipped, otherwise every other format is written out and,
if the write loop completes, one event is published to the
`file-transforms` topic.  Returns the files written and whether the
publish happened. -/
def handleFileTransform (base ext content : Str) (writeOk : Str → Bool) :
    List (Str × Str) × Bool :=
  match parseFile content ext with
  | none => ([], false)
  | some (Except.error _) => ([], false)
  | some (Except.ok records) =>
    if records.length = 0 then ([], false)
    else writeOutputs base records writeOk (conversionsFor ext)

/-- A JSON value as stored in a transaction: the request body fields are
arbitrary JSON, and the server adds a numeric `id`; for these claims
string and number values suffice. -/
inductive JVal : Type
  | str : Str → JVal
  | num : Nat → JVal
deriving DecidableEq

/-- A transaction object (a JS object with JSON values). -/
abbrev JRec := List (Str × JVal)

/-- The object literal of `POST /api/transactions`:
`{ id: transactions.length + 1, ...req.body, received_at: ts }` —
properties are assigned left to right, so a body field named `id`
overwrites the server identifier, while the trailing `received_at`
overwrites any body field of that name. -/
def mkTxn (n : Nat) (body : JRec) (ts : Str) : JRec :=
  jsSetV (body.foldl (fun o p => jsSetV o p.1 p.2)
      (jsSetV [] "id".toList (JVal.num n)))
    "received_at".toList (JVal.str ts)

/-- `POST /api/transactions`: append the new transaction built from the
request body, with identifier `transactions.length + 1`. -/
def submitTxn (store : List JRec) (body : JRec) (ts : Str) : List JRec :=
  store ++ [mkTxn (store.length + 1) body ts]

/-- The formats accepted by `POST /api/export`. -/
def allowedFormats : List Str := [ "csv".toList, "json".toList, "xml".toList ]

/-- Server state touched by the transaction endpoints: the in-memory
store and the names of the export files written so far (file contents
are not modelled; the claims about exports concern only whether a write
happens). -/
structure ServerState : Type where
  transactions : List JRec
  exportFiles : List Str
deriving DecidableEq

/-- `POST /api/export`: `(req.query.format || 'json')` — the JS `||`
defaults both a missing and an empty-string (falsy) parameter to
`json` — then lower-case it, reject anything outside the allowed set
with a 400 response before any file is written; otherwise write
`export-<epoch-millis>.<format>` and answer 200. -/
def exportHandler (format? : Option Str) (time : Nat) (st : ServerState) :
    Nat × ServerState :=
  let raw := match format? with
    | none => "json".toList
    | some s => if s = [] then "json".toList else s
  let format := jsToLower raw
  if format ∈ allowedFormats then
    let filename := "export-".toList ++ (Nat.repr time).toList ++ '.' :: format
    (200, { st with exportFiles := st.exportFiles ++ [filename] })
  else (400, st)

/-- One request against the transaction endpoints: a submission or an
export call. -/
inductive ServerOp : Type
  | submit : JRec → Str → ServerOp
  | exportReq : Option Str → Nat → ServerOp

/-- Run a sequence of requests against the single-threaded server (each
handler runs to completion before the next). -/
def runServer : List ServerOp → ServerState → ServerState
  | [], st => st
  | ServerOp.submit body ts :: rest, st =>
    runServer rest { st with transactions := submitTxn st.transactions body ts }
  | ServerOp.exportReq f tm :: rest, st =>
    runServer rest (exportHandler f tm st).2

/-- The `id` field of every stored transaction, in store order. -/
def txnIds (store : List JRec) : List (Option JVal) :=
  store.map (fun r => jsGet r "id".toList)

/-- Number of submissions in a request sequence. -/
def countSubmits : List ServerOp → Nat
  | [] => 0
  | ServerOp.submit _ _ :: rest => countSubmits rest + 1
  | ServerOp.exportReq _ _ :: rest => countSubmits rest

/-- A message of one topic log: offset, publish timestamp and payload. -/
structure BusMsg (α : Type) : Type where
  offset : Nat
  timestamp : Nat
  data : α
deriving DecidableEq

/-- State of one topic of the event bus: its append-only log, the
identifiers of the connected streaming subscribers, and what each
subscriber connection has been sent so far.  Distinct topics never share
state, so one topic is modelled. -/
structure BusState (α : Type) : Type where
  log : List (BusMsg α)
  subs : List Nat
  delivered : Nat → List (BusMsg α)

/-- A fresh topic: created implicitly with an empty log and no
subscribers. -/
def busInit {α : Type} : BusState α := ⟨[], [], fun _ => []⟩

/-- `publishToTopic` from src/demo/server.js: append a message whose
offset is the current log length, then synchronously write it to every
connected subscriber (once per occurrence in the subscriber list). -/
def publishToTopic {α : Type} (st : BusState α) (payload : α) (ts : Nat) :
    BusState α :=
  let msg : BusMsg α := ⟨st.log.length, ts, payload⟩
  { log := st.log ++ [msg]
    subs := st.subs
    delivered := fun i => st.delivered i ++ List.replicate (st.subs.count i) msg }

/-- The streaming branch of `GET /api/subscribe/:topic`: replay the whole
log to the new connection, then add it to the subscriber list.  `sid`
identifies the fresh connection (a new response object, so its delivery
history starts with the replay). -/
def subscribeStream {α : Type} (st : BusState α) (sid : Nat) : BusState α :=
  { log := st.log
    subs := st.subs ++ [sid]
    delivered := fun i => if i = sid then st.log else st.delivered i }

/-- One event on a topic: a publish (with its payload and timestamp) or a
streaming subscription. -/
inductive BusOp (α : Type) : Type
  | pub : α → Nat → BusOp α
  | sub : Nat → BusOp α

/-- Run a sequence of topic events (all handlers run on one event loop,
so they are atomic with respect to each other). -/
def runBus {α : Type} : List (BusOp α) → BusState α → BusState α
  | [], st => st
  | BusOp.pub p ts :: rest, st => runBus rest (publishToTopic st p ts)
  | BusOp.sub sid :: rest, st => runBus rest (subscribeStream st sid)

/-- Publish events for a list of payload/timestamp pairs. -/
def pubOps {α : Type} (ps : List (α × Nat)) : List (BusOp α) :=
  ps.map (fun q => BusOp.pub q.1 q.2)

/-- The settle delay of the directory watcher (milliseconds). -/
def settleDelay : Nat := 300

/-- The debounce window of the directory watcher (milliseconds). -/
def debounceWindow : Nat := 1000

/-- The debounce of `watchDir` for one path, over the raw notification
times in arrival order: a notification is ignored while the flag is set
(from an accepted notification until `debounceWindow` later, when the
flag-clearing timeout deletes it); an accepted notification sets the
flag.  Returns the accepted notification times. -/
def acceptedFrom (flag : Option Nat) : List Nat → List Nat
  | [] => []
  | t :: ts =>
    match flag with
    | none => t :: acceptedFrom (some t) ts
    | some a =>
      if t < a + debounceWindow then acceptedFrom (some a) ts
      else t :: acceptedFrom (some t) ts

/-- Handler invocations of `watchDir` for one path: each accepted
notification schedules a settle timeout `settleDelay` later, at which
point the handler runs provided the path still exists and is a regular
file (`fsFile` gives that predicate over time).  Returns the invocation
times. -/
def handlerCalls (fsFile : Nat → Bool) (events : List Nat) : List Nat :=
  ((acceptedFrom none events).filter (fun t => fsFile (t + settleDelay))).map
    (fun t => t + settleDelay)

/-- Modelled from the spec (claim C8 wording): delimited-text parsing
described literally — the first non-blank line is the comma-split,
trimmed header; each subsequent non-blank line is split on commas
positionally (cells not trimmed) and zipped against the headers, a short
line yielding empty strings for missing trailing fields; blank
(whitespace-only) lines anywhere are skipped entirely. -/
def csvSpecLiteral (csv : Str) : RecordSet :=
  match (splitLinesRe csv).filter (fun l => jsTrim l ≠ []) with
  | [] => []
  | hdr :: rows =>
    let headers := (splitComma hdr).map jsTrim
    rows.map (fun line => buildCsvRec headers (splitComma line))

/-- The C8 description amended by what the code actually does to data
cells: each data line is split on commas and every cell is trimmed
before being zipped against the headers. -/
def csvSpecTrimmed (csv : Str) : RecordSet :=
  match (splitLinesRe csv).filter (fun l => jsTrim l ≠ []) with
  | [] => []
  | hdr :: rows =>
    let headers := (splitComma hdr).map jsTrim
    rows.map (fun line => buildCsvRec headers ((splitComma line).map jsTrim))

/-- Whether a submission body avoids the reserved `id` field name. -/
def avoidsIdKey : ServerOp → Bool
  | ServerOp.submit body _ => decide ("id".toList ∉ keysOf body)
  | ServerOp.exportReq _ _ => true

/-- The line pipeline shared by the CSV readers: split into raw lines,
trim each, drop the blank ones. -/
def resLines (s : Str) : List Str :=
  ((splitLinesRe s).map jsTrim).filter (fun l => l ≠ [])

/-- The cell pipeline of one CSV line: split on commas and trim each
cell. -/
def cellsOf (l : Str) : List Str := (splitComma l).map jsTrim

/-! ### Properties of the JS object model -/

theorem jsGet_nil {α : Type} (k : Str) : jsGet ([] : List (Str × α)) k = none := rfl

theorem jsGet_cons {α : Type} (p : Str × α) (t : List (Str × α)) (k : Str) :
    jsGet (p :: t) k = if p.1 = k then some p.2 else jsGet t k := rfl

theorem jsGet_update_self {α : Type} (o : List (Str × α)) (k : Str) (v : α)
    (h : k ∈ o.map Prod.fst) :
    jsGet (o.map (fun p => if p.1 = k then (p.1, v) else p)) k = some v := by
  induction o with
  | nil => simp at h
  | cons p t ih =>
    rw [List.map_cons] at h
    by_cases hp : p.1 = k
    · rw [List.map_cons, if_pos hp, jsGet_cons, if_pos hp]
    · have h2 : k ∈ t.map Prod.fst := by
        cases List.mem_cons.mp h with
        | inl hc => exact absurd hc.symm hp
        | inr hc => exact hc
      rw [List.map_cons, if_neg hp, jsGet_cons, if_neg hp]
      exact ih h2

theorem jsGet_append_single_self {α : Type} (o : List (Str × α)) (k : Str) (v : α) :
    jsGet (o ++ [(k, v)]) k = some v ∨ ∃ w, jsGet o k = some w := by
  induction o with
  | nil => left; rw [List.nil_append, jsGet_cons, if_pos rfl]
  | cons p t ih =>
    by_cases hp : p.1 = k
    · right; exact ⟨p.2, by rw [jsGet_cons, if_pos hp]⟩
    · rw [List.cons_append, jsGet_cons, if_neg hp, jsGet_cons, if_neg hp]
      exact ih

theorem jsGet_append_single_self_of_not_mem {α : Type} (o : List (Str × α)) (k : Str) (v : α)
    (h : k ∉ o.map Prod.fst) :
    jsGet (o ++ [(k, v)]) k = some v := by
  induction o with
  | nil => rw [List.nil_append, jsGet_cons, if_pos rfl]
  | cons p t ih =>
    rw [List.map_cons] at h
    have hp : p.1 ≠ k := fun hc => h (hc ▸ List.mem_cons_self _ _)
    rw [List.cons_append, jsGet_cons, if_neg hp]
    exact ih (fun hc => h (List.mem_cons_of_mem _ hc))

theorem jsGet_update_ne {α : Type} (o : List (Str × α)) (k k' : Str) (v : α)
    (h : k' ≠ k) :
    jsGet (o.map (fun p => if p.1 = k then (p.1, v) else p)) k' = jsGet o k' := by
  induction o with
  | nil => rfl
  | cons p t ih =>
    by_cases hp : p.1 = k
    · have hp' : p.1 ≠ k' := by rw [hp]; exact fun hc => h hc.symm
      rw [List.map_cons, if_pos hp, jsGet_cons, jsGet_cons, if_neg hp', if_neg hp']
      exact ih
    · rw [List.map_cons, if_neg hp, jsGet_cons, jsGet_cons]
      by_cases hp' : p.1 = k'
      · rw [if_pos hp', if_pos hp']
      · rw [if_neg hp', if_neg hp']
        exact ih

theorem jsGet_append_single_ne {α : Type} (o : List (Str × α)) (k k' : Str) (v : α)
    (h : k' ≠ k) :
    jsGet (o ++ [(k, v)]) k' = jsGet o k' := by
  induction o with
  | nil =>
    rw [List.nil_append, jsGet_cons, if_neg (fun hc => h hc.symm)]
  | cons p t ih =>
    rw [List.cons_append, jsGet_cons, jsGet_cons]
    by_cases hp' : p.1 = k'
    · rw [if_pos hp', if_pos hp']
    · rw [if_neg hp', if_neg hp']
      exact ih

theorem jsGet_jsSetV_self {α : Type} (o : List (Str × α)) (k : Str) (v : α) :
    jsGet (jsSetV o k v) k = some v := by
  unfold jsSetV
  split
  · exact jsGet_update_self o k v (by assumption)
  · exact jsGet_append_single_self_of_not_mem o k v (by assumption)

theorem jsGet_jsSetV_ne {α : Type} (o : List (Str × α)) (k k' : Str) (v : α)
    (h : k' ≠ k) : jsGet (jsSetV o k v) k' = jsGet o k' := by
  unfold jsSetV
  split
  · exact jsGet_update_ne o k k' v h
  · exact jsGet_append_single_ne o k k' v h

theorem jsGet_foldl_jsSetV_not_mem {α : Type} (body : List (Str × α)) (k : Str) :
    ∀ o : List (Str × α), k ∉ keysOf body →
      jsGet (body.foldl (fun o p => jsSetV o p.1 p.2) o) k = jsGet o k := by
  induction body with
  | nil => intro o h; rfl
  | cons p t ih =>
    intro o h
    rw [keysOf, List.map_cons] at h
    have hk : k ≠ p.1 := fun hc => h (hc ▸ List.mem_cons_self _ _)
    rw [List.foldl_cons, ih _ (fun hc => h (List.mem_cons_of_mem _ hc)),
      jsGet_jsSetV_ne _ _ _ _ hk]

theorem jsGet_foldl_jsSetV_mem {α : Type} (body : List (Str × α)) (k : Str) (v : α) :
    ∀ o : List (Str × α), (k, v) ∈ body → (keysOf body).Nodup →
      jsGet (body.foldl (fun o p => jsSetV o p.1 p.2) o) k = some v := by
  induction body with
  | nil => intro o h _; simp at h
  | cons p t ih =>
    intro o h hnd
    rw [keysOf, List.map_cons, List.nodup_cons] at hnd
    rw [List.foldl_cons]
    cases List.mem_cons.mp h with
    | inl hh =>
      subst hh
      rw [jsGet_foldl_jsSetV_not_mem t k _ hnd.1]
      exact jsGet_jsSetV_self _ _ _
    | inr hh => exact ih _ hh hnd.2

/-! ### Transaction construction -/

theorem mkTxn_received_at (n : Nat) (body : JRec) (ts : Str) :
    jsGet (mkTxn n body ts) "received_at".toList = some (JVal.str ts) := by
  unfold mkTxn
  exact jsGet_jsSetV_self _ _ _

theorem mkTxn_id_of_no_id (n : Nat) (body : JRec) (ts : Str)
    (h : "id".toList ∉ keysOf body) :
    jsGet (mkTxn n body ts) "id".toList = some (JVal.num n) := by
  unfold mkTxn
  rw [jsGet_jsSetV_ne _ _ _ _ (by decide : "id".toList ≠ "received_at".toList),
    jsGet_foldl_jsSetV_not_mem _ _ _ h]
  exact jsGet_jsSetV_self _ _ _

theorem mkTxn_id_of_client_id (n : Nat) (body : JRec) (ts : Str) (v : JVal)
    (h : ("id".toList, v) ∈ body) (hnd : (keysOf body).Nodup) :
    jsGet (mkTxn n body ts) "id".toList = some v := by
  unfold mkTxn
  rw [jsGet_jsSetV_ne _ _ _ _ (by decide : "id".toList ≠ "received_at".toList)]
  exact jsGet_foldl_jsSetV_mem _ _ _ _ h hnd

/-! ### C1: sequential transaction identifiers -/

theorem txnIds_submit (store : List JRec) (body : JRec) (ts : Str)
    (h : "id".toList ∉ keysOf body) :
    txnIds (submitTxn store body ts) = txnIds store ++ [some (JVal.num (store.length + 1))] := by
  unfold submitTxn txnIds
  rw [List.map_append]
  simp only [List.map_cons, List.map_nil]
  rw [mkTxn_id_of_no_id _ _ _ h]

theorem runServer_ids (ops : List ServerOp) (st : ServerState)
    (hgood : txnIds st.transactions =
      (List.range st.transactions.length).map (fun i => some (JVal.num (i + 1))))
    (hops : ∀ op ∈ ops, avoidsIdKey op = true) :
    txnIds (runServer ops st).transactions =
      (List.range (st.transactions.length + countSubmits ops)).map
        (fun i => some (JVal.num (i + 1))) := by
  induction ops generalizing st with
  | nil => simpa [runServer, countSubmits] using hgood
  | cons op rest ih =>
    cases op with
    | submit body ts =>
      have hbody : "id".toList ∉ keysOf body :=
        of_decide_eq_true (hops _ (List.mem_cons_self _ _))
      have hlen : (submitTxn st.transactions body ts).length = st.transactions.length + 1 := by
        simp [submitTxn]
      have := ih { st with transactions := submitTxn st.transactions body ts }
        (by
          simp only [hlen]
          rw [txnIds_submit _ _ _ hbody, hgood, List.range_succ, List.map_append]
          rfl)
        (fun op hop => hops _ (List.mem_cons_of_mem _ hop))
      simpa [runServer, countSubmits, hlen, Nat.add_assoc, Nat.add_comm 1 (countSubmits rest)]
        using this
    | exportReq f tm =>
      have hexp : ((exportHandler f tm st).2).transactions = st.transactions := by
        unfold exportHandler
        dsimp only
        split <;> rfl
      have := ih (exportHandler f tm st).2 (by rw [hexp]; exact hgood)
        (fun op hop => hops _ (List.mem_cons_of_mem _ hop))
      simpa [runServer, countSubmits, hexp] using this

/-- C1, amended: for every sequence of submissions interleaved with
export calls, provided no submitted body itself carries an `id` field,
the stored transactions carry identifiers 1..N, strictly increasing,
gap-free, in submission order.  (The proviso is forced by
`C1_counterexample`: the request body is spread over the server-assigned
fields, so a body field named `id` overwrites the sequential
identifier.) -/
theorem C1_sequential_ids (ops : List ServerOp)
    (hops : ∀ op ∈ ops, avoidsIdKey op = true) :
    txnIds (runServer ops ⟨[], []⟩).transactions =
      (List.range (countSubmits ops)).map (fun i => some (JVal.num (i + 1))) := by
  simpa using runServer_ids ops ⟨[], []⟩ (by simp [txnIds]) hops

/-- C1 witness: two submissions interleaved with a (failing and a
successful) export call yield identifiers 1, 2. -/
theorem C1_sequential_ids_witness :
    txnIds (runServer
      [ ServerOp.submit [("txn_id".toList, JVal.str "T1".toList)] "t1".toList,
        ServerOp.exportReq (some "xyz".toList) 3,
        ServerOp.exportReq (some "csv".toList) 4,
        ServerOp.submit [("amount".toList, JVal.str "50".toList)] "t2".toList ]
      ⟨[], []⟩).transactions =
      [ some (JVal.num 1), some (JVal.num 2) ] := by
  have h := C1_sequential_ids
    [ ServerOp.submit [("txn_id".toList, JVal.str "T1".toList)] "t1".toList,
      ServerOp.exportReq (some "xyz".toList) 3,
      ServerOp.exportReq (some "csv".toList) 4,
      ServerOp.submit [("amount".toList, JVal.str "50".toList)] "t2".toList ]
    (by decide)
  simpa using h

/-- C1 counterexample: the claim as stated quantifies over arbitrary
well-formed Record bodies, but a body carrying a field named `id` (a
legal Record: one text field) is stored with the client-supplied value
in place of the sequential identifier 1. -/
theorem C1_counterexample :
    txnIds (runServer [ ServerOp.submit [("id".toList, JVal.str "X".toList)] "t0".toList ]
        ⟨[], []⟩).transactions = [ some (JVal.str "X".toList) ] ∧
    txnIds (runServer [ ServerOp.submit [("id".toList, JVal.str "X".toList)] "t0".toList ]
        ⟨[], []⟩).transactions ≠ [ some (JVal.num 1) ] := by
  decide

/-! ### C10: client-supplied id and received_at fields -/

/-- C10, amended: a body field named `id` does overwrite the
server-assigned identifier, because the body is spread after it; but a
body field named `received_at` does not survive — the server timestamp
is assigned after the spread and wins.  (The original claim extended the
override to `received_at`; `C10_counterexample` refutes that part.) -/
theorem C10_client_field_override (n : Nat) (body : JRec) (ts : Str) (v : JVal)
    (hmem : ("id".toList, v) ∈ body) (hnd : (keysOf body).Nodup) :
    jsGet (mkTxn n body ts) "id".toList = some v ∧
    jsGet (mkTxn n body ts) "received_at".toList = some (JVal.str ts) :=
  ⟨mkTxn_id_of_client_id n body ts v hmem hnd, mkTxn_received_at n body ts⟩

/-- C10 witness: a body `{id: "X", note: "n"}` is stored with id `"X"`
and the server receipt timestamp. -/
theorem C10_client_field_override_witness :
    jsGet (mkTxn 1 [("id".toList, JVal.str "X".toList), ("note".toList, JVal.str "n".toList)]
        "t0".toList) "id".toList = some (JVal.str "X".toList) ∧
    jsGet (mkTxn 1 [("id".toList, JVal.str "X".toList), ("note".toList, JVal.str "n".toList)]
        "t0".toList) "received_at".toList = some (JVal.str "t0".toList) :=
  C10_client_field_override 1
    [("id".toList, JVal.str "X".toList), ("note".toList, JVal.str "n".toList)]
    "t0".toList (JVal.str "X".toList) (by decide) (by decide)

/-- C10 counterexample: the claim asserts the client-supplied
`received_at` value is stored, but the server timestamp is assigned
after the body spread, so the stored `received_at` is the server value,
not the client one. -/
theorem C10_counterexample :
    jsGet (mkTxn 1 [("received_at".toList, JVal.str "client".toList)] "server".toList)
        "received_at".toList = some (JVal.str "server".toList) ∧
    jsGet (mkTxn 1 [("received_at".toList, JVal.str "client".toList)] "server".toList)
        "received_at".toList ≠ some (JVal.str "client".toList) := by
  decide

/-! ### C5: export format guard -/

/-- C5, amended: an export request whose format parameter is present and
nonempty and, after lower-casing, outside the set csv/json/xml gets a
400 client error and leaves the server state — transaction store and
export directory — completely unchanged; a missing or empty format
parameter is defaulted to `json` by the falsy `||` default and accepted
with 200.  (The lower-casing proviso is forced by `C5_counterexample`:
the literal parameter `CSV` is outside the enumerated set yet accepted;
the nonemptiness proviso by the `||` default, which accepts the empty
parameter.) -/
theorem C5_export_guard (f : Str) (t : Nat) (st : ServerState)
    (hne : f ≠ []) (h : jsToLower f ∉ allowedFormats) :
    exportHandler (some f) t st = (400, st) ∧
    (exportHandler none t st).1 = 200 ∧
    (exportHandler (some []) t st).1 = 200 := by
  refine ⟨?_, rfl, rfl⟩
  unfold exportHandler
  dsimp only
  rw [if_neg hne, if_neg h]

/-- C5 witness: `format=xyz` answers 400 and writes nothing, while the
missing and the empty parameter are accepted. -/
theorem C5_export_guard_witness :
    (exportHandler (some "xyz".toList) 7
      ⟨[ [("id".toList, JVal.num 1)] ], []⟩ =
      (400, ⟨[ [("id".toList, JVal.num 1)] ], []⟩)) ∧
    (exportHandler none 7 ⟨[ [("id".toList, JVal.num 1)] ], []⟩).1 = 200 ∧
    (exportHandler (some []) 7 ⟨[ [("id".toList, JVal.num 1)] ], []⟩).1 = 200 :=
  C5_export_guard "xyz".toList 7 ⟨[ [("id".toList, JVal.num 1)] ], []⟩
    (by decide) (by decide)

/-- C5 counterexample: `CSV` is outside the literal set csv/json/xml,
yet the handler lower-cases the parameter, answers 200 and writes an
export file — refuting the claim as stated. -/
theorem C5_counterexample :
    "CSV".toList ∉ allowedFormats ∧
    exportHandler (some "CSV".toList) 0 ⟨[], []⟩ =
      (200, ⟨[], [ "export-0.csv".toList ]⟩) := by
  decide

/-! ### C9: watcher debounce -/

theorem acceptedFrom_cons_none (t : Nat) (ts : List Nat) :
    acceptedFrom none (t :: ts) = t :: acceptedFrom (some t) ts := rfl

theorem acceptedFrom_cons_some (a t : Nat) (ts : List Nat) :
    acceptedFrom (some a) (t :: ts) =
      if t < a + debounceWindow then acceptedFrom (some a) ts
      else t :: acceptedFrom (some t) ts := rfl

theorem acceptedFrom_burst (rest : List Nat) (a : Nat)
    (h : ∀ t ∈ rest, t < a + debounceWindow) :
    acceptedFrom (some a) rest = [] := by
  induction rest with
  | nil => rfl
  | cons t ts ih =>
    rw [acceptedFrom_cons_some, if_pos (h t (List.mem_cons_self _ _))]
    exact ih (fun u hu => h u (List.mem_cons_of_mem _ hu))

/-- C9: raw change notifications that all arrive while the debounce flag
set by the first of them is still up (in particular a burst within the
settle window) collapse to at most one handler invocation, which happens
`settleDelay` after the first notification and only if the path still
exists as a regular file at that moment; if the file is gone by then
(deleted before the settle delay elapsed) there is no handler call at
all. -/
theorem C9_debounce_collapse (t1 : Nat) (rest : List Nat) (fsFile : Nat → Bool)
    (h : ∀ t ∈ rest, t1 ≤ t ∧ t < t1 + debounceWindow) :
    handlerCalls fsFile (t1 :: rest) =
      if fsFile (t1 + settleDelay) then [t1 + settleDelay] else [] := by
  unfold handlerCalls
  rw [acceptedFrom_cons_none, acceptedFrom_burst rest t1 (fun t ht => (h t ht).2)]
  by_cases hf : fsFile (t1 + settleDelay) <;> simp [hf]

/-- C9 witness: three notifications at 100, 150, 350 (within one settle
window of each other) with the file deleted before the settle delay
elapses produce no handler call; with the file still present they
produce exactly one, at time 400. -/
theorem C9_debounce_collapse_witness :
    handlerCalls (fun u => decide (u < 400)) [100, 150, 350] = [] ∧
    handlerCalls (fun _ => true) [100, 150, 350] = [400] := by
  constructor
  · have h := C9_debounce_collapse 100 [150, 350] (fun u => decide (u < 400)) (by decide)
    simpa using h
  · have h := C9_debounce_collapse 100 [150, 350] (fun _ => true) (by decide)
    simpa using h

/-! ### C2: event bus offsets and streaming delivery -/

theorem runBus_append {α : Type} (a b : List (BusOp α)) (st : BusState α) :
    runBus (a ++ b) st = runBus b (runBus a st) := by
  induction a generalizing st with
  | nil => rfl
  | cons op rest ih =>
    cases op with
    | pub p ts => rw [List.cons_append]; exact ih _
    | sub sid => rw [List.cons_append]; exact ih _

theorem runBus_pubs_subs {α : Type} (ps : List (α × Nat)) :
    ∀ st : BusState α, (runBus (pubOps ps) st).subs = st.subs := by
  induction ps with
  | nil => intro st; rfl
  | cons q rest ih => intro st; exact ih _

theorem runBus_pubs_log_extend {α : Type} (ps : List (α × Nat)) :
    ∀ st : BusState α, ∃ ext, (runBus (pubOps ps) st).log = st.log ++ ext := by
  induction ps with
  | nil => intro st; exact ⟨[], by simp [pubOps, runBus]⟩
  | cons q rest ih =>
    intro st
    obtain ⟨ext, hext⟩ := ih (publishToTopic st q.1 q.2)
    refine ⟨⟨st.log.length, q.2, q.1⟩ :: ext, ?_⟩
    have : (publishToTopic st q.1 q.2).log = st.log ++ [⟨st.log.length, q.2, q.1⟩] := rfl
    rw [show runBus (pubOps (q :: rest)) st = runBus (pubOps rest) (publishToTopic st q.1 q.2)
        from rfl,
      hext, this, List.append_assoc]
    rfl

theorem runBus_pubs_length {α : Type} (ps : List (α × Nat)) :
    ∀ st : BusState α, (runBus (pubOps ps) st).log.length = st.log.length + ps.length := by
  induction ps with
  | nil => intro st; rfl
  | cons q rest ih =>
    intro st
    rw [show runBus (pubOps (q :: rest)) st = runBus (pubOps rest) (publishToTopic st q.1 q.2)
        from rfl,
      ih]
    have : (publishToTopic st q.1 q.2).log.length = st.log.length + 1 := by
      simp [publishToTopic]
    rw [this, List.length_cons]
    omega

theorem runBus_pubs_offsets {α : Type} (ps : List (α × Nat)) :
    ∀ st : BusState α, st.log.map BusMsg.offset = List.range st.log.length →
      (runBus (pubOps ps) st).log.map BusMsg.offset =
        List.range (runBus (pubOps ps) st).log.length := by
  induction ps with
  | nil => intro st h; exact h
  | cons q rest ih =>
    intro st h
    rw [show runBus (pubOps (q :: rest)) st = runBus (pubOps rest) (publishToTopic st q.1 q.2)
        from rfl]
    apply ih
    have hlog : (publishToTopic st q.1 q.2).log = st.log ++ [⟨st.log.length, q.2, q.1⟩] := rfl
    rw [hlog, List.map_append, h]
    simp [List.range_succ]

theorem runBus_pubs_delivered {α : Type} (ps : List (α × Nat)) :
    ∀ st : BusState α, ∀ s : Nat, st.subs = [s] → st.delivered s = st.log →
      (runBus (pubOps ps) st).delivered s = (runBus (pubOps ps) st).log := by
  induction ps with
  | nil => intro st s hsubs hdel; exact hdel
  | cons q rest ih =>
    intro st s hsubs hdel
    rw [show runBus (pubOps (q :: rest)) st = runBus (pubOps rest) (publishToTopic st q.1 q.2)
        from rfl]
    apply ih _ s
    · exact hsubs
    · show st.delivered s ++ List.replicate (st.subs.count s) _ = st.log ++ _
      rw [hdel, hsubs]
      simp

/-- C2: publishing N messages to a fresh topic assigns offsets 0..N-1 in
publish order; a streaming subscriber that connects after those N
publishes is sent exactly those N historical messages (the prefix of the
final log of length N, in offset order) and then every subsequently
published message, with no gap and no duplicate: what it has been sent
always equals the topic log. -/
theorem C2_offsets_and_streaming {α : Type} (h1 h2 : List (α × Nat)) (s : Nat) :
    (runBus (pubOps h1) (busInit (α := α))).log.map BusMsg.offset = List.range h1.length ∧
    (runBus (pubOps h1 ++ BusOp.sub s :: pubOps h2) (busInit (α := α))).log.map
        BusMsg.offset = List.range (h1.length + h2.length) ∧
    (runBus (pubOps h1 ++ BusOp.sub s :: pubOps h2) (busInit (α := α))).delivered s =
      (runBus (pubOps h1 ++ BusOp.sub s :: pubOps h2) (busInit (α := α))).log ∧
    (runBus (pubOps h1 ++ BusOp.sub s :: pubOps h2) (busInit (α := α))).log.take
        h1.length = (runBus (pubOps h1) (busInit (α := α))).log := by
  have hlen1 : (runBus (pubOps h1) (busInit (α := α))).log.length = h1.length := by
    rw [runBus_pubs_length]; simp [busInit]
  have hoff1 : (runBus (pubOps h1) (busInit (α := α))).log.map BusMsg.offset =
      List.range h1.length := by
    rw [← hlen1]
    exact runBus_pubs_offsets h1 busInit (by rfl)
  have hsplit : runBus (pubOps h1 ++ BusOp.sub s :: pubOps h2) (busInit (α := α)) =
      runBus (pubOps h2)
        (subscribeStream (runBus (pubOps h1) (busInit (α := α))) s) := by
    rw [runBus_append]
    rfl
  set st1 := runBus (pubOps h1) (busInit (α := α)) with hst1
  have hsub_log : (subscribeStream st1 s).log = st1.log := rfl
  have hsub_subs : (subscribeStream st1 s).subs = st1.subs ++ [s] := rfl
  have hsubs1 : st1.subs = [] := by
    rw [hst1, runBus_pubs_subs]
    rfl
  have hfin_len : (runBus (pubOps h2) (subscribeStream st1 s)).log.length =
      h1.length + h2.length := by
    rw [runBus_pubs_length, hsub_log, hlen1]
  refine ⟨hoff1, ?_, ?_, ?_⟩
  · rw [hsplit, ← hfin_len]
    apply runBus_pubs_offsets
    rw [hsub_log, hlen1]
    exact hoff1
  · rw [hsplit]
    apply runBus_pubs_delivered
    · rw [hsub_subs, hsubs1]
      rfl
    · simp [subscribeStream]
  · rw [hsplit]
    obtain ⟨ext, hext⟩ := runBus_pubs_log_extend h2 (subscribeStream st1 s)
    rw [hext, hsub_log, ← hlen1, List.take_left]

/-! ### C6: transform output isolation -/

theorem writeOutputs_eq (base : Str) (records : RecordSet) (writeOk : Str → Bool) :
    ∀ targets : List Str,
      writeOutputs base records writeOk targets =
        ((targets.takeWhile (fun tg => writeOk (base ++ tg))).map
            (fun tg => (base ++ tg, serializeAs tg records)),
          targets.all (fun tg => writeOk (base ++ tg))) := by
  intro targets
  induction targets with
  | nil => rfl
  | cons tg rest ih =>
    show (if writeOk (base ++ tg) then _ else _) = _
    by_cases hw : writeOk (base ++ tg)
    · rw [if_pos hw, ih]
      simp [List.takeWhile_cons, List.all_cons, hw]
    · rw [if_neg hw]
      simp [List.takeWhile_cons, List.all_cons, hw]

/-- C6, amended: in the transform pipeline the conversion writes are not
isolated per target — the write loop has no per-target error handling,
so for an input parsing to a non-empty record set the files written are
exactly the targets before the first failing write (later targets are
not attempted) and the notification is published only when every write
succeeds.  (`C6_counterexample` refutes the claimed continue-on-error
behaviour.) -/
theorem C6_write_isolation (base ext content : Str) (writeOk : Str → Bool)
    (records : RecordSet)
    (hparse : parseFile content ext = some (Except.ok records))
    (hne : records ≠ []) :
    handleFileTransform base ext content writeOk =
      (((conversionsFor ext).takeWhile (fun tg => writeOk (base ++ tg))).map
          (fun tg => (base ++ tg, serializeAs tg records)),
        (conversionsFor ext).all (fun tg => writeOk (base ++ tg))) := by
  unfold handleFileTransform
  rw [hparse]
  dsimp only
  rw [if_neg (by simpa [List.length_eq_zero] using hne)]
  exact writeOutputs_eq base records writeOk (conversionsFor ext)

/-- C6 witness: for a CSV input whose `.json` write fails, the amended
characterization evaluates to no files written and no notification. -/
theorem C6_write_isolation_witness :
    handleFileTransform "f".toList ".csv".toList "a,b\n1,2".toList
      (fun n => decide (n ≠ "f.json".toList)) = ([], false) := by
  have h := C6_write_isolation "f".toList ".csv".toList "a,b\n1,2".toList
    (fun n => decide (n ≠ "f.json".toList))
    [ [("a".toList, "1".toList), ("b".toList, "2".toList)] ] rfl (by decide)
  rw [h]
  decide

/-- C6 counterexample: the input `a,b` / `1,2` parses to one non-empty
record set; with a write oracle failing only on the `.json` target, the
claim predicts the `.xml` file is still written and the notification
still published, but the pipeline writes nothing further and publishes
nothing. -/
theorem C6_counterexample :
    parseFile "a,b\n1,2".toList ".csv".toList =
      some (Except.ok [ [("a".toList, "1".toList), ("b".toList, "2".toList)] ]) ∧
    (handleFileTransform "f".toList ".csv".toList "a,b\n1,2".toList
        (fun n => decide (n ≠ "f.json".toList))).2 = false ∧
    "f.xml".toList ∉ (handleFileTransform "f".toList ".csv".toList "a,b\n1,2".toList
        (fun n => decide (n ≠ "f.json".toList))).1.map Prod.fst := by
  refine ⟨rfl, by decide, by decide⟩

/-! ### C7: totality of the lax readers -/

/-- C7: delimited-text and tagged-markup parsing are total — for every
input string `parseFile` yields a record set (possibly empty or
misaligned) and never an error — while structured-document parsing can
fail, as witnessed by a malformed document whose error carries the
cause. -/
theorem C7_parse_totality :
    (∀ s : Str, parseFile s ".csv".toList = some (Except.ok (csvToRecords s))) ∧
    (∀ s : Str, parseFile s ".xml".toList = some (Except.ok (xmlToRecords s))) ∧
    (∃ s e : Str, parseFile s ".json".toList = some (Except.error e) ∧ e ≠ []) := by
  refine ⟨fun s => ?_, fun s => ?_, ⟨"[\x7b".toList,
    "malformed structured document".toList, rfl, by decide⟩⟩
  · unfold parseFile
    rw [if_pos rfl]
  · unfold parseFile
    rw [if_neg (by decide), if_neg (by decide), if_pos rfl]

/-! ### String lemmas: splitting and trimming -/

theorem splitComma_nil : splitComma [] = [[]] := rfl

theorem splitComma_comma (t : Str) : splitComma (',' :: t) = [] :: splitComma t := rfl

theorem splitComma_cons (c : Char) (t h : Str) (r : List Str) (hc : c ≠ ',')
    (he : splitComma t = h :: r) : splitComma (c :: t) = (c :: h) :: r := by
  rw [splitComma.eq_def]
  split <;> simp_all

theorem splitComma_ne_nil (s : Str) : splitComma s ≠ [] := by
  induction s using splitComma.induct with
  | case1 => simp [splitComma_nil]
  | case2 t ih => simp [splitComma_comma]
  | case3 c t hc he ih => exact absurd he ih
  | case4 c t hc h r he ih =>
    rw [splitComma_cons c t h r (by simpa using hc) he]
    simp

theorem splitLinesRe_nil : splitLinesRe [] = [[]] := rfl

theorem splitLinesRe_crlf (t : Str) :
    splitLinesRe ('\r' :: '\n' :: t) = [] :: splitLinesRe t := rfl

theorem splitLinesRe_lf (t : Str) :
    splitLinesRe ('\n' :: t) = [] :: splitLinesRe t := rfl

theorem splitLinesRe_cons (c : Char) (t h : Str) (r : List Str)
    (h1 : ∀ u, c = '\r' → t = '\n' :: u → False) (h2 : c ≠ '\n')
    (he : splitLinesRe t = h :: r) : splitLinesRe (c :: t) = (c :: h) :: r := by
  rw [splitLinesRe.eq_def]
  split <;> simp_all

theorem splitLinesRe_ne_nil (s : Str) : splitLinesRe s ≠ [] := by
  induction s using splitLinesRe.induct with
  | case1 => simp [splitLinesRe_nil]
  | case2 t ih => simp [splitLinesRe_crlf]
  | case3 t ih => simp [splitLinesRe_lf]
  | case4 c t h1 h2 he ih => exact absurd he ih
  | case5 c t h1 h2 h r he ih =>
    rw [splitLinesRe_cons c t h r h1 (by simpa using h2) he]
    simp

theorem jsTrim_nil : jsTrim [] = [] := rfl

theorem jsTrim_cons_ws (c : Char) (l : Str) (h : isJsWs c) :
    jsTrim (c :: l) = jsTrim l := by
  unfold jsTrim
  rw [List.dropWhile_cons_of_pos h]

theorem jsTrim_snoc_ws (l : Str) (c : Char) (h : isJsWs c) :
    jsTrim (l ++ [c]) = jsTrim l := by
  induction l with
  | nil =>
    rw [List.nil_append]
    unfold jsTrim
    rw [List.dropWhile_cons_of_pos h]
  | cons a l2 ih =>
    by_cases ha : isJsWs a
    · rw [List.cons_append, jsTrim_cons_ws _ _ ha, jsTrim_cons_ws _ _ ha, ih]
    · have e1 : List.dropWhile isJsWs (a :: (l2 ++ [c])) = a :: (l2 ++ [c]) :=
        List.dropWhile_cons_of_neg (by simpa using ha)
      have e2 : List.dropWhile isJsWs (a :: l2) = a :: l2 :=
        List.dropWhile_cons_of_neg (by simpa using ha)
      unfold jsTrim
      rw [show (a :: l2) ++ [c] = a :: (l2 ++ [c]) from rfl, e1, e2,
        show (a :: (l2 ++ [c])).reverse = c :: (a :: l2).reverse by simp,
        List.dropWhile_cons_of_pos h]

theorem isJsWs_not_comma (c : Char) (h : isJsWs c) : c ≠ ',' := by
  intro hc
  subst hc
  simp [isJsWs] at h

/-- Appending one non-comma character extends the last cell. -/
theorem splitComma_snoc (c : Char) (hc : c ≠ ',') :
    ∀ l : Str, ∃ L z, splitComma l = L ++ [z] ∧
      splitComma (l ++ [c]) = L ++ [z ++ [c]] := by
  intro l
  induction l using splitComma.induct with
  | case1 =>
    exact ⟨[], [], rfl, splitComma_cons c [] [] [] hc rfl⟩
  | case2 t ih =>
    obtain ⟨L, z, h1, h2⟩ := ih
    exact ⟨[] :: L, z,
      by rw [splitComma_comma, h1]; rfl,
      by rw [List.cons_append, splitComma_comma, h2]; rfl⟩
  | case3 a t ha he ih => exact absurd he (splitComma_ne_nil t)
  | case4 a t ha h r he ih =>
    obtain ⟨L, z, h1, h2⟩ := ih
    cases L with
    | nil =>
      refine ⟨[], a :: z, ?_, ?_⟩
      · rw [splitComma_cons a t z [] (by simpa using ha) (by simpa using h1)]
        rfl
      · rw [List.cons_append,
          splitComma_cons a (t ++ [c]) (z ++ [c]) [] (by simpa using ha)
            (by simpa using h2)]
        rfl
    | cons x L2 =>
      refine ⟨(a :: x) :: L2, z, ?_, ?_⟩
      · rw [splitComma_cons a t x (L2 ++ [z]) (by simpa using ha) (by simpa using h1)]
        rfl
      · rw [List.cons_append,
          splitComma_cons a (t ++ [c]) x (L2 ++ [z ++ [c]]) (by simpa using ha)
            (by simpa using h2)]
        rfl

/-- Appending one non-linefeed character extends the last line. -/
theorem splitLinesRe_snoc_other (c : Char) (hc : c ≠ '\n') :
    ∀ l : Str, ∃ L z, splitLinesRe l = L ++ [z] ∧
      splitLinesRe (l ++ [c]) = L ++ [z ++ [c]] := by
  intro l
  induction l using splitLinesRe.induct with
  | case1 =>
    exact ⟨[], [], rfl,
      splitLinesRe_cons c [] [] [] (by intro u h1 h2; cases h2) hc rfl⟩
  | case2 t ih =>
    obtain ⟨L, z, h1, h2⟩ := ih
    exact ⟨[] :: L, z,
      by rw [splitLinesRe_crlf, h1]; rfl,
      by rw [show ('\r' :: '\n' :: t) ++ [c] = '\r' :: '\n' :: (t ++ [c]) from rfl,
        splitLinesRe_crlf, h2]; rfl⟩
  | case3 t ih =>
    obtain ⟨L, z, h1, h2⟩ := ih
    exact ⟨[] :: L, z,
      by rw [splitLinesRe_lf, h1]; rfl,
      by rw [List.cons_append, splitLinesRe_lf, h2]; rfl⟩
  | case4 a t ha1 ha2 he ih => exact absurd he (splitLinesRe_ne_nil t)
  | case5 a t ha1 ha2 h r he ih =>
    obtain ⟨L, z, h1, h2⟩ := ih
    have ha1' : ∀ u, a = '\r' → t ++ [c] = '\n' :: u → False := by
      intro u hra htu
      cases t with
      | nil =>
        rw [List.nil_append] at htu
        have h3 : c = '\n' := by
          have := congrArg (fun l => l.headD ' ') htu
          simpa using this
        exact hc h3
      | cons x t2 =>
        rw [List.cons_append] at htu
        have h3 : x = '\n' := by
          have := congrArg (fun l => l.headD ' ') htu
          simpa using this
        exact ha1 t2 hra (by rw [h3])
    cases L with
    | nil =>
      refine ⟨[], a :: z, ?_, ?_⟩
      · rw [splitLinesRe_cons a t z [] ha1 (by simpa using ha2) (by simpa using h1)]
        rfl
      · rw [List.cons_append,
          splitLinesRe_cons a (t ++ [c]) (z ++ [c]) [] ha1' (by simpa using ha2)
            (by simpa using h2)]
        rfl
    | cons x L2 =>
      refine ⟨(a :: x) :: L2, z, ?_, ?_⟩
      · rw [splitLinesRe_cons a t x (L2 ++ [z]) ha1 (by simpa using ha2)
          (by simpa using h1)]
        rfl
      · rw [List.cons_append,
          splitLinesRe_cons a (t ++ [c]) x (L2 ++ [z ++ [c]]) ha1' (by simpa using ha2)
            (by simpa using h2)]
        rfl

/-- Appending a linefeed closes the current last line (consuming a
trailing carriage return into the break) and opens an empty one. -/
theorem splitLinesRe_snoc_lf :
    ∀ l : Str, ∃ L z, splitLinesRe l = L ++ [z] ∧
      (splitLinesRe (l ++ ['\n']) = L ++ [z, []] ∨
        ∃ z2, z = z2 ++ ['\r'] ∧ splitLinesRe (l ++ ['\n']) = L ++ [z2, []]) := by
  intro l
  induction l using splitLinesRe.induct with
  | case1 => exact ⟨[], [], rfl, Or.inl rfl⟩
  | case2 t ih =>
    obtain ⟨L, z, h1, hd⟩ := ih
    refine ⟨[] :: L, z, by rw [splitLinesRe_crlf, h1]; rfl, ?_⟩
    cases hd with
    | inl h2 =>
      exact Or.inl (by
        rw [show ('\r' :: '\n' :: t) ++ ['\n'] = '\r' :: '\n' :: (t ++ ['\n']) from rfl,
          splitLinesRe_crlf, h2]
        rfl)
    | inr h2 =>
      obtain ⟨z2, hz, h2⟩ := h2
      exact Or.inr ⟨z2, hz, by
        rw [show ('\r' :: '\n' :: t) ++ ['\n'] = '\r' :: '\n' :: (t ++ ['\n']) from rfl,
          splitLinesRe_crlf, h2]
        rfl⟩
  | case3 t ih =>
    obtain ⟨L, z, h1, hd⟩ := ih
    refine ⟨[] :: L, z, by rw [splitLinesRe_lf, h1]; rfl, ?_⟩
    cases hd with
    | inl h2 =>
      exact Or.inl (by rw [List.cons_append, splitLinesRe_lf, h2]; rfl)
    | inr h2 =>
      obtain ⟨z2, hz, h2⟩ := h2
      exact Or.inr ⟨z2, hz, by rw [List.cons_append, splitLinesRe_lf, h2]; rfl⟩
  | case4 a t ha1 ha2 he ih => exact absurd he (splitLinesRe_ne_nil t)
  | case5 a t ha1 ha2 h r he ih =>
    by_cases hrt : a = '\r' ∧ t = []
    · obtain ⟨hra, hte⟩ := hrt
      subst hra
      subst hte
      exact ⟨[], ['\r'], rfl, Or.inr ⟨[], rfl, rfl⟩⟩
    · have ha1' : ∀ u, a = '\r' → t ++ ['\n'] = '\n' :: u → False := by
        intro u hra htu
        cases t with
        | nil => exact hrt ⟨hra, rfl⟩
        | cons x t2 =>
          rw [List.cons_append] at htu
          have h3 : x = '\n' := by
            have := congrArg (fun l => l.headD ' ') htu
            simpa using this
          exact ha1 t2 hra (by rw [h3])
      obtain ⟨L, z, h1, hd⟩ := ih
      cases L with
      | nil =>
        refine ⟨[], a :: z, by
          rw [splitLinesRe_cons a t z [] ha1 (by simpa using ha2) (by simpa using h1)]
          rfl, ?_⟩
        cases hd with
        | inl h2 =>
          exact Or.inl (by
            rw [List.cons_append,
              splitLinesRe_cons a (t ++ ['\n']) z [[]] ha1' (by simpa using ha2)
                (by simpa using h2)]
            rfl)
        | inr h2 =>
          obtain ⟨z2, hz, h2⟩ := h2
          refine Or.inr ⟨a :: z2, by rw [hz]; rfl, ?_⟩
          rw [List.cons_append,
            splitLinesRe_cons a (t ++ ['\n']) z2 [[]] ha1' (by simpa using ha2)
              (by simpa using h2)]
          rfl
      | cons x L2 =>
        refine ⟨(a :: x) :: L2, z, by
          rw [splitLinesRe_cons a t x (L2 ++ [z]) ha1 (by simpa using ha2)
            (by simpa using h1)]; rfl, ?_⟩
        cases hd with
        | inl h2 =>
          exact Or.inl (by
            rw [List.cons_append,
              splitLinesRe_cons a (t ++ ['\n']) x (L2 ++ [z, []]) ha1'
                (by simpa using ha2) (by simpa using h2)]
            rfl)
        | inr h2 =>
          obtain ⟨z2, hz, h2⟩ := h2
          refine Or.inr ⟨z2, hz, ?_⟩
          rw [List.cons_append,
            splitLinesRe_cons a (t ++ ['\n']) x (L2 ++ [z2, []]) ha1'
              (by simpa using ha2) (by simpa using h2)]
          rfl

/-! ### The line and cell pipelines are trim-invariant -/

theorem resLines_snoc_ws (l : Str) (c : Char) (h : isJsWs c) :
    resLines (l ++ [c]) = resLines l := by
  by_cases hc : c = '\n'
  · subst hc
    obtain ⟨L, z, h1, hd⟩ := splitLinesRe_snoc_lf l
    cases hd with
    | inl h2 =>
      simp only [resLines, h1, h2, List.map_append, List.filter_append, List.map_cons,
        List.map_nil, jsTrim_nil]
      by_cases hz : jsTrim z = [] <;> simp [hz]
    | inr h2 =>
      obtain ⟨z2, hz, h2⟩ := h2
      subst hz
      simp only [resLines, h1, h2, List.map_append, List.filter_append, List.map_cons,
        List.map_nil, jsTrim_nil, jsTrim_snoc_ws z2 '\r' (by decide)]
      by_cases hz : jsTrim z2 = [] <;> simp [hz]
  · obtain ⟨L, z, h1, h2⟩ := splitLinesRe_snoc_other c hc l
    simp [resLines, h1, h2, jsTrim_snoc_ws z c h]

theorem resLines_cons_ws (c : Char) (t : Str) (h : isJsWs c) :
    resLines (c :: t) = resLines t := by
  by_cases hc : c = '\n'
  · subst hc
    simp [resLines, splitLinesRe_lf, jsTrim_nil]
  · by_cases hr : c = '\r' ∧ ∃ u, t = '\n' :: u
    · obtain ⟨hcr, u, hu⟩ := hr
      subst hcr
      subst hu
      simp [resLines, splitLinesRe_crlf, splitLinesRe_lf]
    · obtain ⟨h0, r, he⟩ : ∃ h0 r, splitLinesRe t = h0 :: r := by
        cases hsp : splitLinesRe t with
        | nil => exact absurd hsp (splitLinesRe_ne_nil t)
        | cons a b => exact ⟨a, b, rfl⟩
      rw [resLines, resLines,
        splitLinesRe_cons c t h0 r (fun u hcr htu => hr ⟨hcr, u, htu⟩) hc he, he]
      simp [jsTrim_cons_ws c h0 h]

theorem resLines_append_ws (l : Str) :
    ∀ w : Str, (∀ c ∈ w, isJsWs c) → resLines (l ++ w) = resLines l := by
  intro w
  induction w using List.reverseRecOn with
  | nil => intro _; rw [List.append_nil]
  | append_singleton w2 c ih =>
    intro hw
    rw [← List.append_assoc, resLines_snoc_ws _ c (hw c (by simp)),
      ih (fun d hd => hw d (by simp [hd]))]

theorem cellsOf_cons_ws (c : Char) (t : Str) (h : isJsWs c) :
    cellsOf (c :: t) = cellsOf t := by
  obtain ⟨h0, r, he⟩ : ∃ h0 r, splitComma t = h0 :: r := by
    cases hsp : splitComma t with
    | nil => exact absurd hsp (splitComma_ne_nil t)
    | cons a b => exact ⟨a, b, rfl⟩
  rw [cellsOf, cellsOf, splitComma_cons c t h0 r (isJsWs_not_comma c h) he, he]
  simp [jsTrim_cons_ws c h0 h]

theorem cellsOf_snoc_ws (l : Str) (c : Char) (h : isJsWs c) :
    cellsOf (l ++ [c]) = cellsOf l := by
  obtain ⟨L, z, h1, h2⟩ := splitComma_snoc c (isJsWs_not_comma c h) l
  simp [cellsOf, h1, h2, jsTrim_snoc_ws z c h]

theorem cellsOf_append_ws (l : Str) :
    ∀ w : Str, (∀ c ∈ w, isJsWs c) → cellsOf (l ++ w) = cellsOf l := by
  intro w
  induction w using List.reverseRecOn with
  | nil => intro _; rw [List.append_nil]
  | append_singleton w2 c ih =>
    intro hw
    rw [← List.append_assoc, cellsOf_snoc_ws _ c (hw c (by simp)),
      ih (fun d hd => hw d (by simp [hd]))]

/-- A function that ignores leading whitespace characters and trailing
whitespace blocks is invariant under `jsTrim`. -/
theorem trimInvariant_of {β : Type} (F : Str → β)
    (hcons : ∀ c t, isJsWs c → F (c :: t) = F t)
    (hsnoc : ∀ l w, (∀ c ∈ w, isJsWs c) → F (l ++ w) = F l) :
    ∀ s, F (jsTrim s) = F s := by
  have h1 : ∀ x : Str, F (List.dropWhile isJsWs x) = F x := by
    intro x
    induction x with
    | nil => rfl
    | cons a t ih =>
      by_cases ha : isJsWs a
      · rw [List.dropWhile_cons_of_pos ha, ih, hcons a t ha]
      · rw [List.dropWhile_cons_of_neg (by simpa using ha)]
  have h2 : ∀ x : Str, F ((x.reverse.dropWhile isJsWs).reverse) = F x := by
    intro x
    have hx : x = (x.reverse.dropWhile isJsWs).reverse ++
        (x.reverse.takeWhile isJsWs).reverse := by
      calc x = x.reverse.reverse := (List.reverse_reverse x).symm
        _ = (x.reverse.takeWhile isJsWs ++ x.reverse.dropWhile isJsWs).reverse := by
            rw [List.takeWhile_append_dropWhile]
        _ = (x.reverse.dropWhile isJsWs).reverse ++
            (x.reverse.takeWhile isJsWs).reverse := by rw [List.reverse_append]
    have hws : ∀ c ∈ (x.reverse.takeWhile isJsWs).reverse, isJsWs c := by
      intro c hcmem
      exact List.mem_takeWhile_imp (List.mem_reverse.mp hcmem)
    conv_rhs => rw [hx]
    rw [hsnoc _ _ hws]
  intro s
  show F ((((s.dropWhile isJsWs).reverse.dropWhile isJsWs)).reverse) = F s
  rw [h2 (s.dropWhile isJsWs), h1 s]

theorem resLines_jsTrim (s : Str) : resLines (jsTrim s) = resLines s :=
  trimInvariant_of resLines resLines_cons_ws resLines_append_ws s

theorem cellsOf_jsTrim (s : Str) : cellsOf (jsTrim s) = cellsOf s :=
  trimInvariant_of cellsOf cellsOf_cons_ws cellsOf_append_ws s

/-! ### C8: the delimited-text reader, claim versus code -/

/-- The delimited-text reader agrees with the line-by-line description
with trimmed data cells, for every input. -/
theorem csvToRecords_eq_spec (s : Str) : csvToRecords s = csvSpecTrimmed s := by
  have hlines : ((splitLinesRe (jsTrim s)).map jsTrim).filter (fun l => l ≠ []) =
      ((splitLinesRe s).filter (fun l => jsTrim l ≠ [])).map jsTrim := by
    have h1 : resLines (jsTrim s) = resLines s := resLines_jsTrim s
    unfold resLines at h1
    rw [h1, List.filter_map]
    rfl
  simp only [csvToRecords, csvSpecTrimmed]
  rw [hlines]
  cases hnb : (splitLinesRe s).filter (fun l => jsTrim l ≠ []) with
  | nil => simp
  | cons hdr rows =>
    cases rows with
    | nil => simp
    | cons r2 rest =>
      rw [List.map_cons, List.map_cons]
      rw [if_neg (by simp)]
      rw [show (jsTrim hdr :: jsTrim r2 :: rest.map jsTrim).headD [] = jsTrim hdr
          from rfl,
        show (jsTrim hdr :: jsTrim r2 :: rest.map jsTrim).drop 1 =
          jsTrim r2 :: rest.map jsTrim from rfl]
      have hhdr : (splitComma (jsTrim hdr)).map jsTrim = (splitComma hdr).map jsTrim :=
        cellsOf_jsTrim hdr
      rw [hhdr]
      show (jsTrim r2 :: rest.map jsTrim).map
          (fun line => buildCsvRec ((splitComma hdr).map jsTrim)
            ((splitComma line).map jsTrim)) =
        (r2 :: rest).map
          (fun line => buildCsvRec ((splitComma hdr).map jsTrim)
            ((splitComma line).map jsTrim))
      rw [show (jsTrim r2 :: rest.map jsTrim) = (r2 :: rest).map jsTrim from rfl,
        List.map_map]
      apply List.map_congr_left
      intro line hmem
      show buildCsvRec ((splitComma hdr).map jsTrim) (cellsOf (jsTrim line)) =
        buildCsvRec ((splitComma hdr).map jsTrim) (cellsOf line)
      rw [cellsOf_jsTrim line]

/-- C8, amended: delimited-text parsing takes the first non-blank
(non-whitespace-only) line as the comma-split, trimmed header; each
subsequent non-blank line is split on commas, each cell is trimmed (the
amendment: the code trims data cells just as it trims header cells), and
the cells are zipped positionally against the headers, a short line
yielding empty strings for the missing trailing fields; blank lines
anywhere, including a blank final line, are skipped entirely. -/
theorem C8_csv_line_discipline (s : Str) : csvToRecords s = csvSpecTrimmed s :=
  csvToRecords_eq_spec s

/-! ### C4 groundwork: characters, trimming, joining and splitting -/

theorem isWordChar_not_ws (c : Char) (h : isWordChar c = true) : isJsWs c = false := by
  simp only [isWordChar, decide_eq_true_eq] at h
  simp only [isJsWs, decide_eq_false_iff_not]
  omega

theorem dropWhile_eq_self_of_head {p : Char → Bool} (l : Str)
    (h : ∀ c ∈ l, p c = false) : l.dropWhile p = l := by
  cases l with
  | nil => rfl
  | cons c t =>
    exact List.dropWhile_cons_of_neg (by simp [h c (List.mem_cons_self _ _)])

theorem jsTrim_eq_self_of_no_ws (l : Str) (h : ∀ c ∈ l, isJsWs c = false) :
    jsTrim l = l := by
  unfold jsTrim
  rw [dropWhile_eq_self_of_head l h,
    dropWhile_eq_self_of_head l.reverse (fun c hc => h c (List.mem_reverse.mp hc)),
    List.reverse_reverse]

theorem all_ws_of_jsTrim_nil (l : Str) (h : jsTrim l = []) :
    ∀ c ∈ l, isJsWs c = true := by
  unfold jsTrim at h
  rw [List.reverse_eq_nil_iff, List.dropWhile_eq_nil_iff] at h
  intro c hc
  have hsplit := List.takeWhile_append_dropWhile isJsWs l
  rw [← hsplit] at hc
  cases List.mem_append.mp hc with
  | inl hm => exact List.mem_takeWhile_imp hm
  | inr hm => exact h c (List.mem_reverse.mpr hm)

theorem jsTrim_ne_nil_of_mem (l : Str) (c : Char) (hc : c ∈ l)
    (hw : isJsWs c = false) : jsTrim l ≠ [] := by
  intro h
  rw [all_ws_of_jsTrim_nil l h c hc] at hw
  exact absurd hw (by simp)

theorem jsTrim_length_le (l : Str) : (jsTrim l).length ≤ l.length := by
  have hd : ∀ m : Str, (m.dropWhile isJsWs).length ≤ m.length := by
    intro m
    induction m with
    | nil => exact Nat.le_refl _
    | cons a t ih =>
      by_cases ha : isJsWs a
      · rw [List.dropWhile_cons_of_pos ha]
        exact Nat.le_succ_of_le ih
      · rw [List.dropWhile_cons_of_neg (by simpa using ha)]
  unfold jsTrim
  calc ((l.dropWhile isJsWs).reverse.dropWhile isJsWs).reverse.length
      = ((l.dropWhile isJsWs).reverse.dropWhile isJsWs).length := List.length_reverse _
    _ ≤ (l.dropWhile isJsWs).reverse.length := hd _
    _ = (l.dropWhile isJsWs).length := List.length_reverse _
    _ ≤ l.length := hd l

theorem getLast_not_ws_of_jsTrim_self (v : Str) (h : jsTrim v = v) (c : Char)
    (hl : v.getLast? = some c) : isJsWs c = false := by
  by_contra hws
  have hws2 : isJsWs c = true := by
    cases hb : isJsWs c with
    | false => exact absurd hb hws
    | true => rfl
  have hv : v.dropLast ++ [c] = v := List.dropLast_append_getLast? c hl
  have h2 : jsTrim v = jsTrim v.dropLast := by
    conv_lhs => rw [← hv]
    exact jsTrim_snoc_ws _ _ hws2
  have hlen : v.length ≤ v.dropLast.length := by
    have h3 : v = jsTrim v.dropLast := by rw [← h2, h]
    calc v.length = (jsTrim v.dropLast).length := by rw [← h3]
      _ ≤ v.dropLast.length := jsTrim_length_le _
  have : v.length = v.dropLast.length + 1 := by
    rw [← hv]
    simp
  omega

theorem intercalate_one (sep : Str) (x : Str) : List.intercalate sep [x] = x := by
  simp [List.intercalate]

theorem intercalate_two (sep x y : Str) (t : List Str) :
    List.intercalate sep (x :: y :: t) = x ++ sep ++ List.intercalate sep (y :: t) := by
  simp only [List.intercalate, List.intersperse]
  rw [List.flatten_cons, List.flatten_cons, List.append_assoc]

theorem mem_intercalate_comma (cells : List Str) (c : Char)
    (hc : c ∈ List.intercalate [','] cells) :
    (∃ x ∈ cells, c ∈ x) ∨ c = ',' := by
  induction cells with
  | nil => exact absurd hc (by simp [List.intercalate])
  | cons x t ih =>
    cases t with
    | nil =>
      rw [intercalate_one] at hc
      exact Or.inl ⟨x, List.mem_cons_self _ _, hc⟩
    | cons y t2 =>
      rw [intercalate_two] at hc
      rcases List.mem_append.mp hc with h1 | h1
      · rcases List.mem_append.mp h1 with h2 | h2
        · exact Or.inl ⟨x, List.mem_cons_self _ _, h2⟩
        · exact Or.inr (by simpa using h2)
      · rcases ih h1 with ⟨z, hz, hcz⟩ | h2
        · exact Or.inl ⟨z, List.mem_cons_of_mem _ hz, hcz⟩
        · exact Or.inr h2

theorem getLast_intercalate_comma (cells : List Str) (c : Char)
    (hne : cells ≠ [])
    (hl : (List.intercalate [','] cells).getLast? = some c) :
    c = ',' ∨ ∃ x ∈ cells, x.getLast? = some c := by
  induction cells with
  | nil => exact absurd rfl hne
  | cons x t ih =>
    cases t with
    | nil =>
      rw [intercalate_one] at hl
      exact Or.inr ⟨x, List.mem_cons_self _ _, hl⟩
    | cons y t2 =>
      rw [intercalate_two, List.getLast?_append, List.getLast?_append] at hl
      cases hrest : (List.intercalate [','] (y :: t2)).getLast? with
      | some d =>
        rw [hrest] at hl
        simp only [Option.or_some] at hl
        injection hl with hd
        subst hd
        rcases ih (by simp) hrest with h1 | ⟨z, hz, hcz⟩
        · exact Or.inl h1
        · exact Or.inr ⟨z, List.mem_cons_of_mem _ hz, hcz⟩
      | none =>
        rw [hrest] at hl
        simp only [Option.none_or] at hl
        rw [show ([','] : Str).getLast? = some ',' from rfl] at hl
        simp only [Option.or_some] at hl
        injection hl with hd
        exact Or.inl hd.symm

theorem splitComma_append_comma (x rest : Str) (hx : ',' ∉ x) :
    splitComma (x ++ ',' :: rest) = x :: splitComma rest := by
  induction x with
  | nil => exact splitComma_comma rest
  | cons c x2 ih =>
    have hc : c ≠ ',' := fun h => hx (h ▸ List.mem_cons_self _ _)
    rw [List.cons_append,
      splitComma_cons c _ x2 (splitComma rest) hc
        (ih (fun h => hx (List.mem_cons_of_mem _ h)))]

theorem splitComma_no_comma (x : Str) (hx : ',' ∉ x) : splitComma x = [x] := by
  induction x with
  | nil => rfl
  | cons c x2 ih =>
    have hc : c ≠ ',' := fun h => hx (h ▸ List.mem_cons_self _ _)
    rw [splitComma_cons c x2 x2 [] hc (ih (fun h => hx (List.mem_cons_of_mem _ h)))]

theorem splitComma_intercalate (cells : List Str) (hne : cells ≠ [])
    (hc : ∀ x ∈ cells, ',' ∉ x) :
    splitComma (List.intercalate [','] cells) = cells := by
  induction cells with
  | nil => exact absurd rfl hne
  | cons x t ih =>
    cases t with
    | nil =>
      rw [intercalate_one, splitComma_no_comma x (hc x (List.mem_cons_self _ _))]
    | cons y t2 =>
      rw [intercalate_two, List.append_assoc, List.cons_append, List.nil_append,
        splitComma_append_comma x _ (hc x (List.mem_cons_self _ _)),
        ih (by simp) (fun z hz => hc z (List.mem_cons_of_mem _ hz))]

theorem splitLinesRe_append_lf (x rest : Str) (h1 : '\n' ∉ x)
    (h2 : x.getLast? ≠ some '\r') :
    splitLinesRe (x ++ '\n' :: rest) = x :: splitLinesRe rest := by
  induction x with
  | nil => exact splitLinesRe_lf rest
  | cons c x2 ih =>
    have hc : c ≠ '\n' := fun h => h1 (h ▸ List.mem_cons_self _ _)
    have hcr : ∀ u, c = '\r' → x2 ++ '\n' :: rest = '\n' :: u → False := by
      intro u hr htu
      cases x2 with
      | nil =>
        subst hr
        exact h2 rfl
      | cons d x3 =>
        rw [List.cons_append] at htu
        have hd : d = '\n' := by
          have := congrArg (fun l => l.headD ' ') htu
          simpa using this
        exact h1 (by rw [hd] at *; exact List.mem_cons_of_mem _ (List.mem_cons_self _ _))
    have hx2last : x2.getLast? ≠ some '\r' := by
      cases x2 with
      | nil => simp
      | cons d x3 =>
        rw [← List.getLast?_cons_cons (a := c)]
        exact h2
    rw [List.cons_append,
      splitLinesRe_cons c _ x2 (splitLinesRe rest) hcr hc
        (ih (fun h => h1 (List.mem_cons_of_mem _ h)) hx2last)]

theorem splitLinesRe_no_lf (x : Str) (h1 : '\n' ∉ x) (h2 : x.getLast? ≠ some '\r') :
    splitLinesRe x = [x] := by
  induction x with
  | nil => rfl
  | cons c x2 ih =>
    have hc : c ≠ '\n' := fun hh => h1 (hh ▸ List.mem_cons_self _ _)
    have hcr : ∀ u, c = '\r' → x2 = '\n' :: u → False := by
      intro u hr hu
      subst hu
      exact h1 (List.mem_cons_of_mem _ (List.mem_cons_self _ _))
    have hx2last : x2.getLast? ≠ some '\r' := by
      cases x2 with
      | nil => simp
      | cons d x3 =>
        rw [← List.getLast?_cons_cons (a := c)]
        exact h2
    rw [splitLinesRe_cons c x2 x2 [] hcr hc
      (ih (fun hh => h1 (List.mem_cons_of_mem _ hh)) hx2last)]

theorem splitLinesRe_intercalate (lines : List Str) (hne : lines ≠ [])
    (h : ∀ l ∈ lines, '\n' ∉ l ∧ l.getLast? ≠ some '\r') :
    splitLinesRe (List.intercalate ['\n'] lines) = lines := by
  induction lines with
  | nil => exact absurd rfl hne
  | cons x t ih =>
    cases t with
    | nil =>
      rw [intercalate_one,
        splitLinesRe_no_lf x (h x (List.mem_cons_self _ _)).1
          (h x (List.mem_cons_self _ _)).2]
    | cons y t2 =>
      rw [intercalate_two, List.append_assoc, List.cons_append, List.nil_append,
        splitLinesRe_append_lf x _ (h x (List.mem_cons_self _ _)).1
          (h x (List.mem_cons_self _ _)).2,
        ih (by simp) (fun z hz => h z (List.mem_cons_of_mem _ hz))]

/-! ### C4 groundwork: rebuilding records -/

theorem jsSetV_not_mem {α : Type} (o : List (Str × α)) (k : Str) (v : α)
    (h : k ∉ o.map Prod.fst) : jsSetV o k v = o ++ [(k, v)] := by
  unfold jsSetV
  rw [if_neg h]

theorem foldl_jsSetV_fresh {α : Type} (body : List (Str × α)) :
    ∀ o : List (Str × α), (∀ k ∈ keysOf body, k ∉ keysOf o) → (keysOf body).Nodup →
      body.foldl (fun o p => jsSetV o p.1 p.2) o = o ++ body := by
  induction body with
  | nil => intro o _ _; simp
  | cons p t ih =>
    intro o hdisj hnd
    rw [keysOf, List.map_cons, List.nodup_cons] at hnd
    rw [List.foldl_cons, jsSetV_not_mem o p.1 p.2 (hdisj p.1 (List.mem_cons_self _ _)),
      ih (o ++ [(p.1, p.2)]) ?_ hnd.2]
    · simp
    · intro k hk
      rw [keysOf, List.map_append]
      intro hmem
      rcases List.mem_append.mp hmem with hm | hm
      · exact hdisj k (List.mem_cons_of_mem _ hk) hm
      · have : k = p.1 := by simpa using hm
        exact hnd.1 (this ▸ hk)

theorem buildCsvRecAux_zip (hs : List Str) :
    ∀ (vals : List Str) (o : Rec), hs.Nodup → (∀ k ∈ hs, k ∉ keysOf o) →
      vals.length = hs.length →
      buildCsvRecAux o hs vals = o ++ hs.zip vals := by
  induction hs with
  | nil =>
    intro vals o _ _ _
    simp [buildCsvRecAux]
  | cons h hs2 ih =>
    intro vals o hnd hdisj hlen
    cases vals with
    | nil => simp at hlen
    | cons v vs =>
      rw [List.nodup_cons] at hnd
      show buildCsvRecAux (jsSetV o h v) hs2 vs = o ++ (h, v) :: hs2.zip vs
      rw [jsSetV_not_mem o h v (hdisj h (List.mem_cons_self _ _)),
        ih vs (o ++ [(h, v)]) hnd.2 ?_ (by simpa using hlen)]
      · simp
      · intro k hk
        rw [keysOf, List.map_append]
        intro hmem
        rcases List.mem_append.mp hmem with hm | hm
        · exact hdisj k (List.mem_cons_of_mem _ hk) hm
        · have : k = h := by simpa using hm
          exact hnd.1 (this ▸ hk)

theorem zip_keys_vals (r : Rec) : (keysOf r).zip (r.map Prod.snd) = r := by
  induction r with
  | nil => rfl
  | cons p t ih =>
    rw [keysOf, List.map_cons, List.map_cons, List.zip_cons_cons]
    rw [keysOf] at ih
    rw [ih]

theorem map_jsGet_keys (r : Rec) (hnd : (keysOf r).Nodup) :
    (keysOf r).map (fun k => (jsGet r k).getD []) = r.map Prod.snd := by
  induction r with
  | nil => rfl
  | cons p t ih =>
    rw [keysOf, List.map_cons, List.nodup_cons] at hnd
    rw [keysOf, List.map_cons, List.map_cons, List.map_cons]
    congr 1
    · rw [jsGet_cons, if_pos rfl]
      rfl
    · rw [← ih hnd.2]
      apply List.map_congr_left
      intro k hk
      rw [jsGet_cons, if_neg (fun hc => hnd.1 (by rw [hc]; exact hk))]

theorem mem_intercalate_head (x : Str) (t : List Str) (c : Char) (hc : c ∈ x) :
    c ∈ List.intercalate [','] (x :: t) := by
  cases t with
  | nil => rw [intercalate_one]; exact hc
  | cons y t2 =>
    rw [intercalate_two]
    exact List.mem_append.mpr (Or.inl (List.mem_append.mpr (Or.inl hc)))

theorem mem_of_getLast? (l : Str) (c : Char) (h : l.getLast? = some c) : c ∈ l := by
  have hv := List.dropLast_append_getLast? c h
  rw [← hv]
  exact List.mem_append.mpr (Or.inr (List.mem_cons_self _ _))

theorem jsTrim_nil_of_all_ws (v : Str) (h : ∀ c ∈ v, isJsWs c = true) :
    jsTrim v = [] := by
  unfold jsTrim
  rw [List.dropWhile_eq_nil_iff.mpr h]
  rfl

theorem recordsToCsv_cons (r0 : Rec) (rs2 : RecordSet) :
    recordsToCsv (r0 :: rs2) =
      List.intercalate ['\n'] (List.intercalate [','] (keysOf r0) ::
        (r0 :: rs2).map (fun r =>
          List.intercalate [','] ((keysOf r0).map (fun h => (jsGet r h).getD [])))) := rfl

/-- The delimited-text round trip at the heart of C4: under uniform
word-character field lists and comma-free, line-break-free,
trim-invariant values (with no record rendering a blank row), parsing
the printed CSV restores the record set exactly. -/
theorem csv_round_trip (rs : RecordSet) (hs : List Str)
    (hkeys : ∀ r ∈ rs, keysOf r = hs)
    (hhs : hs ≠ [])
    (hnd : hs.Nodup)
    (hword : ∀ k ∈ hs, k ≠ [] ∧ ∀ c ∈ k, isWordChar c = true)
    (hval : ∀ r ∈ rs, ∀ p ∈ r, (',' ∉ p.2 ∧ '\n' ∉ p.2) ∧ jsTrim p.2 = p.2)
    (hrow : 1 < hs.length ∨ ∀ r ∈ rs, ∀ p ∈ r, p.2 ≠ []) :
    csvToRecords (recordsToCsv rs) = rs := by
  cases rs with
  | nil => decide
  | cons r0 rs2 =>
    have hword_not_ws : ∀ k ∈ hs, ∀ c ∈ k, isJsWs c = false := by
      intro k hk c hc
      exact isWordChar_not_ws c ((hword k hk).2 c hc)
    -- per-record cell lists are the record values
    have hcells : ∀ r ∈ r0 :: rs2,
        hs.map (fun h => (jsGet r h).getD []) = r.map Prod.snd := by
      intro r hr
      rw [← hkeys r hr]
      exact map_jsGet_keys r (by rw [hkeys r hr]; exact hnd)
    have hrne : ∀ r ∈ r0 :: rs2, r ≠ [] := by
      intro r hr hcon
      have hk := hkeys r hr
      rw [hcon] at hk
      exact hhs (by rw [← hk]; rfl)
    -- the printed text
    have hprint : recordsToCsv (r0 :: rs2) =
        List.intercalate ['\n'] (List.intercalate [','] hs ::
          (r0 :: rs2).map (fun r => List.intercalate [','] (r.map Prod.snd))) := by
      rw [recordsToCsv_cons, hkeys r0 (List.mem_cons_self _ _)]
      congr 1
      congr 1
      apply List.map_congr_left
      intro r hr
      rw [hcells r hr]
    -- facts about each printed line
    have hhdr_lf : '\n' ∉ List.intercalate [','] hs := by
      intro hmem
      rcases mem_intercalate_comma hs '\n' hmem with ⟨k, hk, hck⟩ | hcomma
      · exact absurd ((hword k hk).2 '\n' hck) (by decide)
      · exact absurd hcomma (by decide)
    have hhdr_cr : (List.intercalate [','] hs).getLast? ≠ some '\r' := by
      intro hlast
      rcases getLast_intercalate_comma hs '\r' hhs hlast with hcomma | ⟨k, hk, hlk⟩
      · exact absurd hcomma (by decide)
      · exact absurd ((hword k hk).2 '\r' (mem_of_getLast? k '\r' hlk)) (by decide)
    have hrow_lf : ∀ r ∈ r0 :: rs2, '\n' ∉ List.intercalate [','] (r.map Prod.snd) := by
      intro r hr hmem
      rcases mem_intercalate_comma _ '\n' hmem with ⟨v, hv, hcv⟩ | hcomma
      · obtain ⟨p, hp, hpv⟩ := List.mem_map.mp hv
        exact ((hval r hr p hp).1.2) (hpv ▸ hcv)
      · exact absurd hcomma (by decide)
    have hrow_cr : ∀ r ∈ r0 :: rs2,
        (List.intercalate [','] (r.map Prod.snd)).getLast? ≠ some '\r' := by
      intro r hr hlast
      rcases getLast_intercalate_comma _ '\r' (by
          simpa using hrne r hr) hlast with hcomma | ⟨v, hv, hlv⟩
      · exact absurd hcomma (by decide)
      · obtain ⟨p, hp, hpv⟩ := List.mem_map.mp hv
        have := getLast_not_ws_of_jsTrim_self p.2 (hval r hr p hp).2 '\r' (hpv ▸ hlv)
        exact absurd this (by decide)
    -- every printed line is non-blank after trimming
    have hhdr_nb : jsTrim (List.intercalate [','] hs) ≠ [] := by
      obtain ⟨k0, hs2, hhs0⟩ : ∃ k0 hs2, hs = k0 :: hs2 := by
        cases hs with
        | nil => exact absurd rfl hhs
        | cons a b => exact ⟨a, b, rfl⟩
      obtain ⟨c0, k02, hk0⟩ : ∃ c0 k02, k0 = c0 :: k02 := by
        cases hk : k0 with
        | nil => exact absurd (hk ▸ (hword k0 (hhs0 ▸ List.mem_cons_self _ _)).1) (by simp)
        | cons a b => exact ⟨a, b, rfl⟩
      apply jsTrim_ne_nil_of_mem _ c0
      · rw [hhs0]
        exact mem_intercalate_head k0 hs2 c0 (hk0 ▸ List.mem_cons_self _ _)
      · exact hword_not_ws k0 (hhs0 ▸ List.mem_cons_self _ _) c0
          (hk0 ▸ List.mem_cons_self _ _)
    have hrow_nb : ∀ r ∈ r0 :: rs2,
        jsTrim (List.intercalate [','] (r.map Prod.snd)) ≠ [] := by
      intro r hr
      cases hrow with
      | inl hlen =>
        have hlenr : 1 < (r.map Prod.snd).length := by
          rw [List.length_map, show r.length = (keysOf r).length from
            (List.length_map _ _).symm, hkeys r hr]
          exact hlen
        obtain ⟨v0, v1, vt, hv⟩ : ∃ v0 v1 vt, r.map Prod.snd = v0 :: v1 :: vt := by
          cases hm : r.map Prod.snd with
          | nil => rw [hm] at hlenr; simp at hlenr
          | cons a b =>
            cases hb : b with
            | nil => rw [hm, hb] at hlenr; simp at hlenr
            | cons a2 b2 => exact ⟨a, a2, b2, rfl⟩
        apply jsTrim_ne_nil_of_mem _ ','
        · rw [hv, intercalate_two]
          exact List.mem_append.mpr (Or.inl (List.mem_append.mpr (Or.inr (by simp))))
        · decide
      | inr hne =>
        obtain ⟨p, r2, hrp⟩ : ∃ p r2, r = p :: r2 := by
          cases hr2 : r with
          | nil => exact absurd hr2 (hrne r hr)
          | cons a b => exact ⟨a, b, rfl⟩
        intro htr
        have hall := all_ws_of_jsTrim_nil _ htr
        have hvws : ∀ c ∈ p.2, isJsWs c = true := by
          intro c hc
          apply hall
          rw [hrp, List.map_cons]
          exact mem_intercalate_head p.2 _ c hc
        have : p.2 = [] := by
          rw [← (hval r hr p (hrp ▸ List.mem_cons_self _ _)).2]
          exact jsTrim_nil_of_all_ws p.2 hvws
        exact hne r hr p (hrp ▸ List.mem_cons_self _ _) this
    -- split the printed text back into its lines
    have hsplit : splitLinesRe (recordsToCsv (r0 :: rs2)) =
        List.intercalate [','] hs ::
          (r0 :: rs2).map (fun r => List.intercalate [','] (r.map Prod.snd)) := by
      rw [hprint]
      apply splitLinesRe_intercalate _ (by simp)
      intro l hl
      rcases List.mem_cons.mp hl with hh | hh
      · exact hh ▸ ⟨hhdr_lf, hhdr_cr⟩
      · obtain ⟨r, hr, hrl⟩ := List.mem_map.mp hh
        exact hrl ▸ ⟨hrow_lf r hr, hrow_cr r hr⟩
    -- no line is filtered out
    have hfilter : (splitLinesRe (recordsToCsv (r0 :: rs2))).filter
        (fun l => jsTrim l ≠ []) =
        List.intercalate [','] hs ::
          (r0 :: rs2).map (fun r => List.intercalate [','] (r.map Prod.snd)) := by
      rw [hsplit]
      apply List.filter_eq_self.mpr
      intro l hl
      rcases List.mem_cons.mp hl with hh | hh
      · subst hh
        exact decide_eq_true hhdr_nb
      · obtain ⟨r, hr, hrl⟩ := List.mem_map.mp hh
        exact decide_eq_true (hrl ▸ hrow_nb r hr)
    -- evaluate the reader through its line-by-line description
    rw [csvToRecords_eq_spec]
    unfold csvSpecTrimmed
    rw [hfilter]
    simp only [List.map_cons, List.map_map]
    have hheaders : (splitComma (List.intercalate [','] hs)).map jsTrim = hs := by
      rw [splitComma_intercalate hs hhs (fun k hk hc =>
        absurd ((hword k hk).2 ',' hc) (by decide))]
      apply List.map_congr_left ?_ |>.trans (List.map_id hs)
      intro k hk
      exact jsTrim_eq_self_of_no_ws k (hword_not_ws k hk)
    rw [hheaders]
    show (r0 :: rs2).map ((fun line => buildCsvRec hs ((splitComma line).map jsTrim)) ∘
      (fun r => List.intercalate [','] (r.map Prod.snd))) = r0 :: rs2
    have hone : ∀ r ∈ r0 :: rs2,
        buildCsvRec hs ((splitComma (List.intercalate [','] (r.map Prod.snd))).map jsTrim)
          = r := by
      intro r hr
      have hcne : r.map Prod.snd ≠ [] := by
        intro hcon
        exact hrne r hr (List.map_eq_nil_iff.mp hcon)
      rw [splitComma_intercalate _ hcne (fun v hv hc => by
        obtain ⟨p, hp, hpv⟩ := List.mem_map.mp hv
        exact (hval r hr p hp).1.1 (hpv ▸ hc))]
      have hvals : (r.map Prod.snd).map jsTrim = r.map Prod.snd := by
        apply List.map_congr_left ?_ |>.trans (List.map_id _)
        intro v hv
        obtain ⟨p, hp, hpv⟩ := List.mem_map.mp hv
        exact hpv ▸ (hval r hr p hp).2
      rw [hvals]
      unfold buildCsvRec
      rw [buildCsvRecAux_zip hs _ [] hnd (by simp [keysOf]) (by
        rw [List.length_map, ← hkeys r hr, keysOf, List.length_map]),
        List.nil_append, ← hkeys r hr, zip_keys_vals]
    calc (r0 :: rs2).map ((fun line => buildCsvRec hs ((splitComma line).map jsTrim)) ∘
        (fun r => List.intercalate [','] (r.map Prod.snd)))
        = (r0 :: rs2).map (fun r => r) := by
          apply List.map_congr_left
          intro r hr
          exact hone r hr
      _ = r0 :: rs2 := List.map_id _

/-! ### C4 groundwork: scanning the printed markup -/

theorem isPrefixOf_cons_cons (a b : Char) (as bs : Str) :
    (a :: as).isPrefixOf (b :: bs) = ((a == b) && as.isPrefixOf bs) := rfl

theorem isPrefixOf_head_ne (a b : Char) (as bs : Str) (h : a ≠ b) :
    (a :: as).isPrefixOf (b :: bs) = false := by
  rw [isPrefixOf_cons_cons]
  simp [h]

theorem nil_isPrefixOf (l : Str) : List.isPrefixOf ([] : Str) l = true := by
  cases l <;> rfl

theorem isPrefixOf_self_append (pat rest : Str) :
    pat.isPrefixOf (pat ++ rest) = true := by
  induction pat with
  | nil => rw [List.nil_append]; exact nil_isPrefixOf rest
  | cons c t ih =>
    rw [List.cons_append, isPrefixOf_cons_cons, ih, beq_self_eq_true]
    rfl

theorem isPrefixOf_append_of_le (pat : Str) :
    ∀ y z : Str, pat.length ≤ y.length →
      pat.isPrefixOf (y ++ z) = pat.isPrefixOf y := by
  induction pat with
  | nil => intro y z _; rw [nil_isPrefixOf, nil_isPrefixOf]
  | cons a as ih =>
    intro y z hlen
    cases y with
    | nil => simp at hlen
    | cons b ys =>
      rw [List.cons_append, isPrefixOf_cons_cons, isPrefixOf_cons_cons,
        ih ys z (by simpa using hlen)]

theorem findSub_of_isPrefixOf (pat s : Str) (h : pat.isPrefixOf s = true) :
    findSub pat s = some ([], s.drop pat.length) := by
  cases s <;> simp [findSub, h]

theorem findSub_cons_of_not (pat : Str) (c : Char) (t : Str)
    (h : pat.isPrefixOf (c :: t) = false) :
    findSub pat (c :: t) = (findSub pat t).map (fun p => (c :: p.1, p.2)) := by
  simp [findSub, h]
  cases findSub pat t with
  | none => rfl
  | some p => rfl

/-- Skipping a block in which the pattern matches at no position. -/
theorem findSub_append_skip (pat : Str) :
    ∀ (x : Str) (rest : Str),
      (∀ n < x.length, pat.isPrefixOf (x.drop n ++ rest) = false) →
      findSub pat (x ++ rest) = (findSub pat rest).map (fun p => (x ++ p.1, p.2)) := by
  intro x
  induction x with
  | nil =>
    intro rest _
    rw [List.nil_append]
    cases findSub pat rest with
    | none => rfl
    | some p => rfl
  | cons c x2 ih =>
    intro rest hx
    rw [List.cons_append, findSub_cons_of_not pat c (x2 ++ rest)
        (by simpa using hx 0 (by simp)),
      ih rest (fun n hn => by simpa using hx (n + 1) (by simpa using hn))]
    cases findSub pat rest with
    | none => rfl
    | some p => rfl

theorem prefixFail_of_no_head (p0 : Char) (pp x rest : Str)
    (hx : ∀ c ∈ x, p0 ≠ c) :
    ∀ n < x.length, (p0 :: pp).isPrefixOf (x.drop n ++ rest) = false := by
  intro n hn
  cases hd : x.drop n with
  | nil => exact absurd (List.drop_eq_nil_iff.mp hd) (by omega)
  | cons d ds =>
    have hdm : d ∈ x := List.mem_of_mem_drop (hd ▸ List.mem_cons_self _ _)
    rw [List.cons_append]
    exact isPrefixOf_head_ne p0 d pp _ (hx d hdm)

theorem prefixFail_append (pat : Str) (x y rest : Str)
    (h1 : ∀ n < x.length, pat.isPrefixOf (x.drop n ++ (y ++ rest)) = false)
    (h2 : ∀ n < y.length, pat.isPrefixOf (y.drop n ++ rest) = false) :
    ∀ n < (x ++ y).length, pat.isPrefixOf ((x ++ y).drop n ++ rest) = false := by
  intro n hn
  by_cases hcase : n < x.length
  · have : (x ++ y).drop n = x.drop n ++ y := List.drop_append_of_le_length (by omega)
    rw [this, List.append_assoc]
    exact h1 n hcase
  · have hm : n = x.length + (n - x.length) := by omega
    have : (x ++ y).drop n = y.drop (n - x.length) := by
      rw [hm, List.drop_append]
      congr 1
      omega
    rw [this]
    exact h2 (n - x.length) (by rw [List.length_append] at hn; omega)

theorem prefixFail_cons (pat : Str) (c : Char) (x rest : Str)
    (h0 : pat.isPrefixOf (c :: (x ++ rest)) = false)
    (h1 : ∀ n < x.length, pat.isPrefixOf (x.drop n ++ rest) = false) :
    ∀ n < (c :: x).length, pat.isPrefixOf ((c :: x).drop n ++ rest) = false := by
  intro n hn
  cases n with
  | zero => exact h0
  | succ m => exact h1 m (by simpa using hn)

/-- A bounded, decidable sufficient condition for the pattern matching at
no position of a concrete block, whatever follows it. -/
theorem prefixFail_of_checks (p0 : Char) (pp x rest : Str)
    (h : ∀ n < x.length,
      ((p0 :: pp).isPrefixOf (x.drop n) = false ∧ pp.length + 1 ≤ x.length - n) ∨
      p0 ≠ (x.drop n).headD ' ') :
    ∀ n < x.length, (p0 :: pp).isPrefixOf (x.drop n ++ rest) = false := by
  intro n hn
  rcases h n hn with ⟨hfail, hlen⟩ | hhead
  · rw [isPrefixOf_append_of_le (p0 :: pp) (x.drop n) rest
      (by rw [List.length_drop]; simp only [List.length_cons]; omega)]
    exact hfail
  · cases hd : x.drop n with
    | nil => exact absurd (List.drop_eq_nil_iff.mp hd) (by omega)
    | cons d ds =>
      rw [List.cons_append]
      exact isPrefixOf_head_ne p0 d pp _ (by rw [hd] at hhead; simpa using hhead)

/-- Two word runs closed by `>` match as prefixes only when the words are
equal. -/
theorem word_close_mismatch (w1 : Str) :
    ∀ w2 : Str, (∀ c ∈ w1, isWordChar c = true) → (∀ c ∈ w2, isWordChar c = true) →
      w1 ≠ w2 → ∀ s1 s2 : Str,
      (w1 ++ '>' :: s1).isPrefixOf (w2 ++ '>' :: s2) = false := by
  induction w1 with
  | nil =>
    intro w2 _ hw2 hne s1 s2
    cases w2 with
    | nil => exact absurd rfl hne
    | cons b w2b =>
      rw [List.nil_append, List.cons_append]
      refine isPrefixOf_head_ne '>' b _ _ (fun hc => ?_)
      have := hw2 b (List.mem_cons_self _ _)
      rw [← hc] at this
      exact absurd this (by decide)
  | cons a w1a ih =>
    intro w2 hw1 hw2 hne s1 s2
    cases w2 with
    | nil =>
      rw [List.cons_append, List.nil_append]
      refine isPrefixOf_head_ne a '>' _ _ (fun hc => ?_)
      have := hw1 a (List.mem_cons_self _ _)
      rw [hc] at this
      exact absurd this (by decide)
    | cons b w2b =>
      rw [List.cons_append, List.cons_append, isPrefixOf_cons_cons]
      by_cases hab : a = b
      · subst hab
        rw [beq_self_eq_true, Bool.true_and]
        exact ih w2b (fun c hc => hw1 c (List.mem_cons_of_mem _ hc))
          (fun c hc => hw2 c (List.mem_cons_of_mem _ hc))
          (fun hc => hne (by rw [hc])) s1 s2
      · simp [hab]

theorem takeWhile_word_append (k : Str) (hk : ∀ c ∈ k, isWordChar c = true)
    (c : Char) (hc : isWordChar c = false) (z : Str) :
    (k ++ c :: z).takeWhile isWordChar = k ∧
      (k ++ c :: z).dropWhile isWordChar = c :: z := by
  induction k with
  | nil =>
    constructor
    · rw [List.nil_append, List.takeWhile_cons_of_neg (by simp [hc])]
    · rw [List.nil_append, List.dropWhile_cons_of_neg (by simp [hc])]
  | cons a k2 ih =>
    obtain ⟨ih1, ih2⟩ := ih (fun d hd => hk d (List.mem_cons_of_mem _ hd))
    constructor
    · rw [List.cons_append, List.takeWhile_cons_of_pos (hk a (List.mem_cons_self _ _)), ih1]
    · rw [List.cons_append, List.dropWhile_cons_of_pos (hk a (List.mem_cons_self _ _)), ih2]

theorem escXml_eq_self (v : Str) (h : ∀ c ∈ v, c ≠ '&' ∧ c ≠ '<' ∧ c ≠ '>') :
    escXml v = v := by
  induction v with
  | nil => rfl
  | cons c t ih =>
    obtain ⟨h1, h2, h3⟩ := h c (List.mem_cons_self _ _)
    show escXmlChar c ++ escXml t = c :: t
    rw [escXmlChar, if_neg h1, if_neg h2, if_neg h3,
      ih (fun d hd => h d (List.mem_cons_of_mem _ hd))]
    rfl

theorem findField_cons_other (c : Char) (t : Str) (h : c ≠ '<') :
    findField (c :: t) = findField t := by
  rw [findField.eq_def]
  simp [h]

theorem findField_skip (x : Str) (hx : ∀ c ∈ x, c ≠ '<') :
    ∀ s : Str, findField (x ++ s) = findField s := by
  induction x with
  | nil => intro s; rfl
  | cons c x2 ih =>
    intro s
    rw [List.cons_append, findField_cons_other c _ (hx c (List.mem_cons_self _ _)),
      ih (fun d hd => hx d (List.mem_cons_of_mem _ hd))]

theorem escXml_no_lt (v : Str) : ∀ c ∈ escXml v, c ≠ '<' := by
  induction v with
  | nil => intro c hc; exact absurd hc (by simp [escXml])
  | cons a t ih =>
    intro c hc
    rcases List.mem_append.mp (by simpa [escXml] using hc) with hm | hm
    · unfold escXmlChar at hm
      by_cases h1 : a = '&'
      · rw [if_pos h1] at hm
        fin_cases hm <;> decide
      · rw [if_neg h1] at hm
        by_cases h2 : a = '<'
        · rw [if_pos h2] at hm
          fin_cases hm <;> decide
        · rw [if_neg h2] at hm
          by_cases h3 : a = '>'
          · rw [if_pos h3] at hm
            fin_cases hm <;> decide
          · rw [if_neg h3] at hm
            have : c = a := by simpa using hm
            exact this ▸ h2
    · exact ih c hm

theorem word_ne_of_mem (k : Str) (hk : ∀ c ∈ k, isWordChar c = true) (d : Char)
    (hd : isWordChar d = false) : ∀ c ∈ k, d ≠ c := by
  intro c hc he
  rw [he] at hd
  rw [hk c hc] at hd
  exact absurd hd (by simp)

theorem xmlFieldLine_shape (k v : Str) :
    xmlFieldLine (k, v) =
      ([' ', ' ', ' ', ' '] : Str) ++
        ('<' :: ((k ++ '>' :: escXml v) ++
          ('<' :: ('/' :: (k ++ [ '>', '\n' ]))))) := by
  simp [xmlFieldLine, List.append_assoc]

/-- A printed field line contains no match of a close-tag pattern whose
word differs from the field name. -/
theorem prefixFail_fieldLine (w k v rest : Str)
    (hw : ∀ c ∈ w, isWordChar c = true)
    (hk : ∀ c ∈ k, isWordChar c = true) (hkne : k ≠ [])
    (hwk : w ≠ k) :
    ∀ n < (xmlFieldLine (k, v)).length,
      ('<' :: '/' :: (w ++ [ '>' ])).isPrefixOf
        ((xmlFieldLine (k, v)).drop n ++ rest) = false := by
  obtain ⟨kc, k2, hk0⟩ : ∃ kc k2, k = kc :: k2 := by
    cases k with
    | nil => exact absurd rfl hkne
    | cons a b => exact ⟨a, b, rfl⟩
  rw [xmlFieldLine_shape]
  apply prefixFail_append
  · exact prefixFail_of_no_head '<' _ _ _ (by decide)
  · apply prefixFail_cons
    · rw [hk0]
      simp only [List.cons_append, List.append_assoc, List.nil_append]
      rw [isPrefixOf_cons_cons,
        isPrefixOf_head_ne '/' kc _ _
          (word_ne_of_mem k hk '/' (by decide) kc (hk0 ▸ List.mem_cons_self _ _)),
        Bool.and_false]
    · apply prefixFail_append
      · apply prefixFail_of_no_head
        intro c hc
        rcases List.mem_append.mp hc with hm | hm
        · exact word_ne_of_mem k hk '<' (by decide) c hm
        · rcases List.mem_cons.mp hm with hm2 | hm2
          · rw [hm2]; decide
          · exact fun he => escXml_no_lt v c hm2 he.symm
      · apply prefixFail_cons
        · simp only [List.cons_append, List.append_assoc, List.nil_append]
          rw [isPrefixOf_cons_cons, isPrefixOf_cons_cons,
            word_close_mismatch w k hw hk hwk]
          simp
        · apply prefixFail_of_no_head
          intro c hc
          rcases List.mem_cons.mp hc with hm | hm
          · rw [hm]; decide
          · rcases List.mem_append.mp hm with hm2 | hm2
            · exact word_ne_of_mem k hk '<' (by decide) c hm2
            · fin_cases hm2 <;> decide

/-! ### C4 groundwork: the case-insensitive item-tag scan (the `i`
flag of `itemRe`) -/

theorem toNat_charOfNat (n : Nat) (h : n < 55296) : (Char.ofNat n).toNat = n := by
  rw [Char.ofNat, dif_pos (Or.inl h)]
  simp [Char.ofNatAux, Char.toNat, UInt32.toNat]

theorem charLower_toNat (c : Char) :
    (charLower c).toNat =
      if 65 ≤ c.toNat ∧ c.toNat ≤ 90 then c.toNat + 32 else c.toNat := by
  unfold charLower
  by_cases hr : 65 ≤ c.toNat ∧ c.toNat ≤ 90
  · rw [if_pos hr, if_pos hr, toNat_charOfNat _ (by omega)]
  · rw [if_neg hr, if_neg hr]

theorem charLower_word (c : Char) (h : isWordChar c = true) :
    isWordChar (charLower c) = true := by
  simp only [isWordChar, decide_eq_true_eq] at h ⊢
  rw [charLower_toNat]
  split <;> omega

theorem charLower_word_ne (c d : Char) (hc : isWordChar c = true)
    (hd : isWordChar d = false) : charLower c ≠ d := by
  intro he
  rw [← he, charLower_word c hc] at hd
  exact absurd hd (by simp)

theorem charLower_ne_lt (c : Char) (h : c ≠ '<') : charLower c ≠ '<' := by
  unfold charLower
  split
  · rename_i hr
    intro he
    have h2 := congrArg Char.toNat he
    rw [toNat_charOfNat _ (by omega)] at h2
    have h60 : ('<').toNat = 60 := rfl
    rw [h60] at h2
    omega
  · exact h

theorem isPrefixOfCI_cons_cons (p c : Char) (ps cs : Str) :
    isPrefixOfCI (p :: ps) (c :: cs) = ((charLower c == p) && isPrefixOfCI ps cs) := rfl

theorem isPrefixOfCI_head_ne (p c : Char) (ps cs : Str) (h : charLower c ≠ p) :
    isPrefixOfCI (p :: ps) (c :: cs) = false := by
  rw [isPrefixOfCI_cons_cons]
  simp [h]

theorem nil_isPrefixOfCI (l : Str) : isPrefixOfCI ([] : Str) l = true := by
  cases l <;> rfl

theorem isPrefixOfCI_self_append (pat : Str) (hfix : ∀ c ∈ pat, charLower c = c) :
    ∀ rest : Str, isPrefixOfCI pat (pat ++ rest) = true := by
  induction pat with
  | nil =>
    intro rest
    rw [List.nil_append]
    exact nil_isPrefixOfCI rest
  | cons c t ih =>
    intro rest
    rw [List.cons_append, isPrefixOfCI_cons_cons,
      ih (fun d hd => hfix d (List.mem_cons_of_mem _ hd)) rest,
      hfix c (List.mem_cons_self _ _)]
    simp

theorem isPrefixOfCI_append_of_le (pat : Str) :
    ∀ y z : Str, pat.length ≤ y.length →
      isPrefixOfCI pat (y ++ z) = isPrefixOfCI pat y := by
  induction pat with
  | nil => intro y z _; rw [nil_isPrefixOfCI, nil_isPrefixOfCI]
  | cons a as ih =>
    intro y z hlen
    cases y with
    | nil => simp at hlen
    | cons b ys =>
      rw [List.cons_append, isPrefixOfCI_cons_cons, isPrefixOfCI_cons_cons,
        ih ys z (by simpa using hlen)]

theorem findSubCI_of_isPrefixOfCI (pat s : Str) (h : isPrefixOfCI pat s = true) :
    findSubCI pat s = some ([], s.drop pat.length) := by
  cases s <;> simp [findSubCI, h]

theorem findSubCI_cons_of_not (pat : Str) (c : Char) (t : Str)
    (h : isPrefixOfCI pat (c :: t) = false) :
    findSubCI pat (c :: t) = (findSubCI pat t).map (fun p => (c :: p.1, p.2)) := by
  simp [findSubCI, h]
  cases findSubCI pat t with
  | none => rfl
  | some p => rfl

/-- Skipping a block in which the pattern case-insensitively matches at
no position. -/
theorem findSubCI_append_skip (pat : Str) :
    ∀ (x : Str) (rest : Str),
      (∀ n < x.length, isPrefixOfCI pat (x.drop n ++ rest) = false) →
      findSubCI pat (x ++ rest) = (findSubCI pat rest).map (fun p => (x ++ p.1, p.2)) := by
  intro x
  induction x with
  | nil =>
    intro rest _
    rw [List.nil_append]
    cases findSubCI pat rest with
    | none => rfl
    | some p => rfl
  | cons c x2 ih =>
    intro rest hx
    rw [List.cons_append, findSubCI_cons_of_not pat c (x2 ++ rest)
        (by simpa using hx 0 (by simp)),
      ih rest (fun n hn => by simpa using hx (n + 1) (by simpa using hn))]
    cases findSubCI pat rest with
    | none => rfl
    | some p => rfl

theorem prefixFailCI_of_no_head (p0 : Char) (pp x rest : Str)
    (hx : ∀ c ∈ x, charLower c ≠ p0) :
    ∀ n < x.length, isPrefixOfCI (p0 :: pp) (x.drop n ++ rest) = false := by
  intro n hn
  cases hd : x.drop n with
  | nil => exact absurd (List.drop_eq_nil_iff.mp hd) (by omega)
  | cons d ds =>
    have hdm : d ∈ x := List.mem_of_mem_drop (hd ▸ List.mem_cons_self _ _)
    rw [List.cons_append]
    exact isPrefixOfCI_head_ne p0 d pp _ (hx d hdm)

theorem prefixFailCI_append (pat : Str) (x y rest : Str)
    (h1 : ∀ n < x.length, isPrefixOfCI pat (x.drop n ++ (y ++ rest)) = false)
    (h2 : ∀ n < y.length, isPrefixOfCI pat (y.drop n ++ rest) = false) :
    ∀ n < (x ++ y).length, isPrefixOfCI pat ((x ++ y).drop n ++ rest) = false := by
  intro n hn
  by_cases hcase : n < x.length
  · have : (x ++ y).drop n = x.drop n ++ y := List.drop_append_of_le_length (by omega)
    rw [this, List.append_assoc]
    exact h1 n hcase
  · have hm : n = x.length + (n - x.length) := by omega
    have : (x ++ y).drop n = y.drop (n - x.length) := by
      rw [hm, List.drop_append]
      congr 1
      omega
    rw [this]
    exact h2 (n - x.length) (by rw [List.length_append] at hn; omega)

theorem prefixFailCI_cons (pat : Str) (c : Char) (x rest : Str)
    (h0 : isPrefixOfCI pat (c :: (x ++ rest)) = false)
    (h1 : ∀ n < x.length, isPrefixOfCI pat (x.drop n ++ rest) = false) :
    ∀ n < (c :: x).length, isPrefixOfCI pat ((c :: x).drop n ++ rest) = false := by
  intro n hn
  cases n with
  | zero => exact h0
  | succ m => exact h1 m (by simpa using hn)

/-- A bounded, decidable sufficient condition for the pattern
case-insensitively matching at no position of a concrete block, whatever
follows it. -/
theorem prefixFailCI_of_checks (p0 : Char) (pp x rest : Str)
    (h : ∀ n < x.length,
      (isPrefixOfCI (p0 :: pp) (x.drop n) = false ∧ pp.length + 1 ≤ x.length - n) ∨
      charLower ((x.drop n).headD ' ') ≠ p0) :
    ∀ n < x.length, isPrefixOfCI (p0 :: pp) (x.drop n ++ rest) = false := by
  intro n hn
  rcases h n hn with ⟨hfail, hlen⟩ | hhead
  · rw [isPrefixOfCI_append_of_le (p0 :: pp) (x.drop n) rest
      (by rw [List.length_drop]; simp only [List.length_cons]; omega)]
    exact hfail
  · cases hd : x.drop n with
    | nil => exact absurd (List.drop_eq_nil_iff.mp hd) (by omega)
    | cons d ds =>
      rw [List.cons_append]
      exact isPrefixOfCI_head_ne p0 d pp _ (by rw [hd] at hhead; simpa using hhead)

/-- A lower-case word run closed by `>` case-insensitively matches a
word run closed by `>` only when it is the lower-casing of the
latter. -/
theorem word_close_mismatchCI (w1 : Str) :
    ∀ w2 : Str, (∀ c ∈ w1, isWordChar c = true) → (∀ c ∈ w2, isWordChar c = true) →
      w1 ≠ jsToLower w2 → ∀ s1 s2 : Str,
      isPrefixOfCI (w1 ++ '>' :: s1) (w2 ++ '>' :: s2) = false := by
  induction w1 with
  | nil =>
    intro w2 _ hw2 hne s1 s2
    cases w2 with
    | nil => exact absurd rfl hne
    | cons b w2b =>
      rw [List.nil_append, List.cons_append]
      exact isPrefixOfCI_head_ne '>' b _ _
        (charLower_word_ne b '>' (hw2 b (List.mem_cons_self _ _)) (by decide))
  | cons a w1a ih =>
    intro w2 hw1 hw2 hne s1 s2
    cases w2 with
    | nil =>
      rw [List.cons_append, List.nil_append]
      refine isPrefixOfCI_head_ne a '>' _ _ (fun hc => ?_)
      have hgt : charLower '>' = '>' := by decide
      rw [hgt] at hc
      have := hw1 a (List.mem_cons_self _ _)
      rw [← hc] at this
      exact absurd this (by decide)
    | cons b w2b =>
      rw [List.cons_append, List.cons_append, isPrefixOfCI_cons_cons]
      by_cases hab : charLower b = a
      · rw [hab, beq_self_eq_true, Bool.true_and]
        refine ih w2b (fun c hc => hw1 c (List.mem_cons_of_mem _ hc))
          (fun c hc => hw2 c (List.mem_cons_of_mem _ hc)) (fun hc => ?_) s1 s2
        apply hne
        rw [hc]
        show a :: jsToLower w2b = jsToLower (b :: w2b)
        rw [← hab]
        rfl
      · simp [hab]

/-- A printed field line contains no case-insensitive match of a
close-tag pattern whose word differs from the lower-cased field
name. -/
theorem prefixFail_fieldLineCI (w k v rest : Str)
    (hw : ∀ c ∈ w, isWordChar c = true)
    (hk : ∀ c ∈ k, isWordChar c = true) (hkne : k ≠ [])
    (hwk : w ≠ jsToLower k) :
    ∀ n < (xmlFieldLine (k, v)).length,
      isPrefixOfCI ('<' :: '/' :: (w ++ [ '>' ]))
        ((xmlFieldLine (k, v)).drop n ++ rest) = false := by
  obtain ⟨kc, k2, hk0⟩ : ∃ kc k2, k = kc :: k2 := by
    cases k with
    | nil => exact absurd rfl hkne
    | cons a b => exact ⟨a, b, rfl⟩
  rw [xmlFieldLine_shape]
  apply prefixFailCI_append
  · exact prefixFailCI_of_no_head '<' _ _ _ (by decide)
  · apply prefixFailCI_cons
    · rw [hk0]
      simp only [List.cons_append, List.append_assoc, List.nil_append]
      rw [isPrefixOfCI_cons_cons,
        isPrefixOfCI_head_ne '/' kc _ _
          (charLower_word_ne kc '/' (hk kc (hk0 ▸ List.mem_cons_self _ _)) (by decide)),
        Bool.and_false]
    · apply prefixFailCI_append
      · apply prefixFailCI_of_no_head
        intro c hc
        rcases List.mem_append.mp hc with hm | hm
        · exact charLower_word_ne c '<' (hk c hm) (by decide)
        · rcases List.mem_cons.mp hm with hm2 | hm2
          · rw [hm2]; decide
          · exact charLower_ne_lt c (escXml_no_lt v c hm2)
      · apply prefixFailCI_cons
        · simp only [List.cons_append, List.append_assoc, List.nil_append]
          rw [isPrefixOfCI_cons_cons, isPrefixOfCI_cons_cons,
            word_close_mismatchCI w k hw hk hwk]
          simp
        · apply prefixFailCI_of_no_head
          intro c hc
          rcases List.mem_cons.mp hc with hm | hm
          · rw [hm]; decide
          · rcases List.mem_append.mp hm with hm2 | hm2
            · exact charLower_word_ne c '<' (hk c hm2) (by decide)
            · fin_cases hm2 <;> decide

theorem findField_open_hit (k z v rest : Str)
    (hk : ∀ c ∈ k, isWordChar c = true) (hkne : k ≠ [])
    (hfs : findSub ("</".toList ++ k ++ [ '>' ]) z = some (v, rest)) :
    findField ('<' :: (k ++ '>' :: z)) = some (k, v, rest) := by
  obtain ⟨htw, hdw⟩ := takeWhile_word_append k hk '>' (by decide) z
  rw [findField.eq_def]
  simp only [htw, hdw, hfs, if_pos, if_neg hkne]

theorem findField_fieldLine (k v s : Str)
    (hk : ∀ c ∈ k, isWordChar c = true) (hkne : k ≠ [])
    (hv : ∀ c ∈ v, c ≠ '&' ∧ c ≠ '<' ∧ c ≠ '>') :
    findField (xmlFieldLine (k, v) ++ s) = some (k, v, '\n' :: s) := by
  have hesc : escXml v = v := escXml_eq_self v hv
  have hshape : xmlFieldLine (k, v) ++ s =
      ([' ', ' ', ' ', ' '] : Str) ++
        ('<' :: (k ++ '>' :: (v ++ ('<' :: '/' :: (k ++ '>' :: '\n' :: s))))) := by
    rw [xmlFieldLine_shape, hesc]
    simp [List.append_assoc]
  rw [hshape, findField_skip [ ' ', ' ', ' ', ' ' ] (by decide)]
  apply findField_open_hit k _ v ('\n' :: s) hk hkne
  have hpat : ("</".toList ++ k ++ [ '>' ] : Str) = '<' :: '/' :: (k ++ [ '>' ]) := by
    simp
  have hsplit : v ++ ('<' :: '/' :: (k ++ '>' :: '\n' :: s)) =
      v ++ (('<' :: '/' :: (k ++ [ '>' ])) ++ '\n' :: s) := by
    simp [List.append_assoc]
  rw [hpat, hsplit,
    findSub_append_skip ('<' :: '/' :: (k ++ [ '>' ])) v _
      (prefixFail_of_no_head '<' _ v _
        (fun c hc => fun he => (hv c hc).2.1 he.symm)),
    findSub_of_isPrefixOf _ _ (isPrefixOf_self_append _ _)]
  simp [List.drop_left]

theorem xmlFields_succ (fuel : Nat) (s : Str) :
    xmlFields (fuel + 1) s =
      match findField s with
      | none => []
      | some (k, v, rest) => (k, v) :: xmlFields fuel rest := rfl

theorem xmlItems_succ (fuel : Nat) (s : Str) :
    xmlItems (fuel + 1) s =
      match findSubCI xmlOpenTag s with
      | none => []
      | some (_, rest) =>
        match findSubCI xmlCloseTag rest with
        | none => []
        | some (content, rest2) => content :: xmlItems fuel rest2 := rfl

theorem fieldLine_length_pos (p : Str × Str) : 0 < (xmlFieldLine p).length := by
  obtain ⟨k, v⟩ := p
  rw [xmlFieldLine_shape]
  simp

theorem length_le_flatten_lines (fs : Rec) :
    fs.length ≤ ((fs.map xmlFieldLine).flatten).length := by
  induction fs with
  | nil => simp
  | cons p t ih =>
    rw [List.map_cons, List.flatten_cons, List.length_cons, List.length_append]
    have := fieldLine_length_pos p
    omega

/-- A run of printed field lines contains no close tag whose word differs
from every field name. -/
theorem prefixFail_lines (w : Str) :
    ∀ (fs : Rec), (∀ p ∈ fs, (∀ c ∈ p.1, isWordChar c = true) ∧ p.1 ≠ [] ∧ w ≠ p.1) →
    (∀ c ∈ w, isWordChar c = true) →
    ∀ rest : Str, ∀ n < ((fs.map xmlFieldLine).flatten).length,
      ('<' :: '/' :: (w ++ [ '>' ])).isPrefixOf
        (((fs.map xmlFieldLine).flatten).drop n ++ rest) = false := by
  intro fs
  induction fs with
  | nil =>
    intro _ _ rest n hn
    simp at hn
  | cons p t ih =>
    intro hps hw rest
    rw [List.map_cons, List.flatten_cons]
    obtain ⟨hk, hkne, hwk⟩ := hps p (List.mem_cons_self _ _)
    obtain ⟨k, v⟩ := p
    exact prefixFail_append _ _ _ _
      (prefixFail_fieldLine w k v _ hw hk hkne hwk)
      (ih (fun q hq => hps q (List.mem_cons_of_mem _ hq)) hw rest)

/-- The field loop recovers exactly the printed key/value pairs of an
item body. -/
theorem xmlFields_lines (fs : Rec)
    (hks : ∀ p ∈ fs, (∀ c ∈ p.1, isWordChar c = true) ∧ p.1 ≠ [])
    (hvs : ∀ p ∈ fs, ∀ c ∈ p.2, c ≠ '&' ∧ c ≠ '<' ∧ c ≠ '>') :
    ∀ fuel, fs.length < fuel →
      xmlFields fuel ('\n' :: ((fs.map xmlFieldLine).flatten ++ [ ' ', ' ' ])) = fs := by
  induction fs with
  | nil =>
    intro fuel hf
    cases fuel with
    | zero => omega
    | succ f =>
      rw [xmlFields_succ]
      have hnone : findField ('\n' :: ((([] : Rec).map xmlFieldLine).flatten ++ [ ' ', ' ' ])) = none := by
        decide
      rw [hnone]
  | cons p t ih =>
    intro fuel hf
    cases fuel with
    | zero => omega
    | succ f =>
      obtain ⟨k, v⟩ := p
      obtain ⟨hk, hkne⟩ := hks (k, v) (List.mem_cons_self _ _)
      have hv := hvs (k, v) (List.mem_cons_self _ _)
      have hff : findField ('\n' :: ((((k, v) :: t).map xmlFieldLine).flatten ++ [ ' ', ' ' ])) =
          some (k, v, '\n' :: ((t.map xmlFieldLine).flatten ++ [ ' ', ' ' ])) := by
        rw [List.map_cons, List.flatten_cons, List.append_assoc,
          findField_cons_other '\n' _ (by decide),
          findField_fieldLine k v _ hk hkne hv]
      rw [xmlFields_succ, hff]
      show (k, v) :: xmlFields f ('\n' :: ((t.map xmlFieldLine).flatten ++ [ ' ', ' ' ])) =
        (k, v) :: t
      rw [ih (fun q hq => hks q (List.mem_cons_of_mem _ hq))
        (fun q hq => hvs q (List.mem_cons_of_mem _ hq)) f (by simpa using hf)]

theorem foldl_jsSetV_trim (r : Rec) :
    ∀ o : Rec, (∀ p ∈ r, jsTrim p.2 = p.2) →
      r.foldl (fun o p => jsSetV o p.1 (jsTrim p.2)) o =
        r.foldl (fun o p => jsSetV o p.1 p.2) o := by
  induction r with
  | nil => intro o _; rfl
  | cons p t ih =>
    intro o htrim
    rw [List.foldl_cons, List.foldl_cons, htrim p (List.mem_cons_self _ _),
      ih _ (fun q hq => htrim q (List.mem_cons_of_mem _ hq))]

/-- Extracting a record from its own printed item body gives the record
back. -/
theorem recOfXmlItem_lines (r : Rec)
    (hks : ∀ p ∈ r, (∀ c ∈ p.1, isWordChar c = true) ∧ p.1 ≠ [])
    (hvs : ∀ p ∈ r, ∀ c ∈ p.2, c ≠ '&' ∧ c ≠ '<' ∧ c ≠ '>')
    (htrim : ∀ p ∈ r, jsTrim p.2 = p.2)
    (hnd : (keysOf r).Nodup) :
    recOfXmlItem ('\n' :: ((r.map xmlFieldLine).flatten ++ [ ' ', ' ' ])) = r := by
  unfold recOfXmlItem
  rw [xmlFields_lines r hks hvs _ (by
    have h1 := length_le_flatten_lines r
    simp only [List.length_cons, List.length_append]
    omega)]
  rw [foldl_jsSetV_trim r [] htrim,
    foldl_jsSetV_fresh r [] (fun k _ => by simp [keysOf]) hnd,
    List.nil_append]

theorem xmlOpenTag_cons : xmlOpenTag = '<' :: "transaction>".toList := by decide

theorem xmlCloseTag_cons :
    xmlCloseTag = '<' :: '/' :: ("transaction".toList ++ [ '>' ]) := by decide

theorem xmlItem_length_pos (r : Rec) : 0 < (xmlItem r).length := by
  rw [xmlItem]
  simp only [List.length_append]
  have h16 : ("  <transaction>\n".toList).length = 16 := by decide
  omega

theorem length_le_flatten_items (rs : RecordSet) :
    rs.length ≤ ((rs.map xmlItem).flatten).length := by
  induction rs with
  | nil => simp
  | cons r t ih =>
    rw [List.map_cons, List.flatten_cons, List.length_cons, List.length_append]
    have := xmlItem_length_pos r
    omega

/-- A run of printed field lines contains no case-insensitive close tag
whose word differs from every lower-cased field name. -/
theorem prefixFail_linesCI (w : Str) :
    ∀ (fs : Rec), (∀ p ∈ fs, (∀ c ∈ p.1, isWordChar c = true) ∧ p.1 ≠ [] ∧
      w ≠ jsToLower p.1) →
    (∀ c ∈ w, isWordChar c = true) →
    ∀ rest : Str, ∀ n < ((fs.map xmlFieldLine).flatten).length,
      isPrefixOfCI ('<' :: '/' :: (w ++ [ '>' ]))
        (((fs.map xmlFieldLine).flatten).drop n ++ rest) = false := by
  intro fs
  induction fs with
  | nil =>
    intro _ _ rest n hn
    simp at hn
  | cons p t ih =>
    intro hps hw rest
    rw [List.map_cons, List.flatten_cons]
    obtain ⟨hk, hkne, hwk⟩ := hps p (List.mem_cons_self _ _)
    obtain ⟨k, v⟩ := p
    exact prefixFailCI_append _ _ _ _
      (prefixFail_fieldLineCI w k v _ hw hk hkne hwk)
      (ih (fun q hq => hps q (List.mem_cons_of_mem _ hq)) hw rest)

/-- The item loop of `xmlToRecords` on a printed document recovers the
printed item bodies, one per record, in order; the field names must
differ from the item tag `transaction` even after lower-casing, since
the item tags are matched case-insensitively. -/
theorem xmlItems_doc (rs : RecordSet) :
    (∀ r ∈ rs, ∀ p ∈ r,
      (∀ c ∈ p.1, isWordChar c = true) ∧ p.1 ≠ [] ∧
        jsToLower p.1 ≠ "transaction".toList) →
    (∀ r ∈ rs, ∀ p ∈ r, ∀ c ∈ p.2, c ≠ '&' ∧ c ≠ '<' ∧ c ≠ '>') →
    ∀ fuel, rs.length < fuel → ∀ pre : Str,
      (∀ n < pre.length, isPrefixOfCI xmlOpenTag
        (pre.drop n ++ ((rs.map xmlItem).flatten ++ "</transactions>".toList)) = false) →
      xmlItems fuel (pre ++ ((rs.map xmlItem).flatten ++ "</transactions>".toList)) =
        rs.map (fun r => '\n' :: ((r.map xmlFieldLine).flatten ++ [ ' ', ' ' ])) := by
  induction rs with
  | nil =>
    intro _ _ fuel hf pre hpre
    cases fuel with
    | zero => omega
    | succ f =>
      rw [xmlItems_succ]
      have hnone : findSubCI xmlOpenTag
          (pre ++ ((([] : RecordSet).map xmlItem).flatten ++ "</transactions>".toList)) = none := by
        rw [findSubCI_append_skip xmlOpenTag pre _ hpre]
        have h0 : findSubCI xmlOpenTag
            ((([] : RecordSet).map xmlItem).flatten ++ "</transactions>".toList) = none := by
          decide
        rw [h0]
        rfl
      rw [hnone]
      rfl
  | cons r t ih =>
    intro hks hvs fuel hf pre hpre
    cases fuel with
    | zero => omega
    | succ f =>
      have hS2 : (((r :: t).map xmlItem).flatten ++ "</transactions>".toList) =
          ([ ' ', ' ' ] : Str) ++ (xmlOpenTag ++
            ('\n' :: ((r.map xmlFieldLine).flatten ++ ([ ' ', ' ' ] ++
              (xmlCloseTag ++ ('\n' :: ((t.map xmlItem).flatten ++
                "</transactions>".toList))))))) := by
        simp [xmlItem, xmlOpenTag, xmlCloseTag, List.append_assoc]
      have hpre2 : ∀ n < (pre ++ [ ' ', ' ' ]).length, isPrefixOfCI xmlOpenTag
          ((pre ++ [ ' ', ' ' ]).drop n ++ (xmlOpenTag ++
            ('\n' :: ((r.map xmlFieldLine).flatten ++ ([ ' ', ' ' ] ++
              (xmlCloseTag ++ ('\n' :: ((t.map xmlItem).flatten ++
                "</transactions>".toList)))))))) = false := by
        apply prefixFailCI_append
        · intro n hn
          have h := hpre n hn
          rw [hS2] at h
          rw [← List.append_assoc] at h
          rw [List.append_assoc] at h
          exact h
        · rw [xmlOpenTag_cons]
          exact prefixFailCI_of_no_head '<' _ _ _ (by decide)
      have h1 : findSubCI xmlOpenTag ((pre ++ [ ' ', ' ' ]) ++ (xmlOpenTag ++
          ('\n' :: ((r.map xmlFieldLine).flatten ++ ([ ' ', ' ' ] ++
            (xmlCloseTag ++ ('\n' :: ((t.map xmlItem).flatten ++
              "</transactions>".toList)))))))) =
          some (pre ++ [ ' ', ' ' ],
            '\n' :: ((r.map xmlFieldLine).flatten ++ ([ ' ', ' ' ] ++
              (xmlCloseTag ++ ('\n' :: ((t.map xmlItem).flatten ++
                "</transactions>".toList)))))) := by
        rw [findSubCI_append_skip xmlOpenTag (pre ++ [ ' ', ' ' ]) _ hpre2,
          findSubCI_of_isPrefixOfCI _ _ (isPrefixOfCI_self_append _ (by decide) _)]
        simp [List.drop_left]
      have hA : ∀ n < ('\n' :: ((r.map xmlFieldLine).flatten ++ [ ' ', ' ' ])).length,
          isPrefixOfCI xmlCloseTag
            (('\n' :: ((r.map xmlFieldLine).flatten ++ [ ' ', ' ' ])).drop n ++
              (xmlCloseTag ++ ('\n' :: ((t.map xmlItem).flatten ++
                "</transactions>".toList)))) = false := by
        rw [xmlCloseTag_cons]
        apply prefixFailCI_cons
        · exact isPrefixOfCI_head_ne '<' '\n' _ _ (by decide)
        · apply prefixFailCI_append
          · apply prefixFail_linesCI "transaction".toList r _ (by decide)
            intro p hp
            obtain ⟨hw, hne, hnt⟩ := hks r (List.mem_cons_self _ _) p hp
            exact ⟨hw, hne, fun he => hnt he.symm⟩
          · exact prefixFailCI_of_no_head '<' _ _ _ (by decide)
      have h2 : findSubCI xmlCloseTag
          ('\n' :: ((r.map xmlFieldLine).flatten ++ ([ ' ', ' ' ] ++
            (xmlCloseTag ++ ('\n' :: ((t.map xmlItem).flatten ++
              "</transactions>".toList)))))) =
          some ('\n' :: ((r.map xmlFieldLine).flatten ++ [ ' ', ' ' ]),
            '\n' :: ((t.map xmlItem).flatten ++ "</transactions>".toList)) := by
        have hR1 : ('\n' :: ((r.map xmlFieldLine).flatten ++ ([ ' ', ' ' ] ++
            (xmlCloseTag ++ ('\n' :: ((t.map xmlItem).flatten ++
              "</transactions>".toList)))))) =
            ('\n' :: ((r.map xmlFieldLine).flatten ++ [ ' ', ' ' ])) ++
              (xmlCloseTag ++ ('\n' :: ((t.map xmlItem).flatten ++
                "</transactions>".toList))) := by
          simp [List.append_assoc]
        rw [hR1, findSubCI_append_skip _ _ _ hA,
          findSubCI_of_isPrefixOfCI _ _ (isPrefixOfCI_self_append _ (by decide) _)]
        simp [List.drop_left]
      rw [show pre ++ (((r :: t).map xmlItem).flatten ++ "</transactions>".toList) =
          (pre ++ [ ' ', ' ' ]) ++ (xmlOpenTag ++
            ('\n' :: ((r.map xmlFieldLine).flatten ++ ([ ' ', ' ' ] ++
              (xmlCloseTag ++ ('\n' :: ((t.map xmlItem).flatten ++
                "</transactions>".toList))))))) from by
        rw [hS2, ← List.append_assoc]]
      rw [xmlItems_succ, h1]
      show (match findSubCI xmlCloseTag
          ('\n' :: ((r.map xmlFieldLine).flatten ++ ([ ' ', ' ' ] ++
            (xmlCloseTag ++ ('\n' :: ((t.map xmlItem).flatten ++
              "</transactions>".toList)))))) with
        | none => []
        | some (content, rest2) => content :: xmlItems f rest2) =
        (r :: t).map (fun r => '\n' :: ((r.map xmlFieldLine).flatten ++ [ ' ', ' ' ]))
      rw [h2]
      show ('\n' :: ((r.map xmlFieldLine).flatten ++ [ ' ', ' ' ])) ::
          xmlItems f ('\n' :: ((t.map xmlItem).flatten ++ "</transactions>".toList)) =
        (r :: t).map (fun r => '\n' :: ((r.map xmlFieldLine).flatten ++ [ ' ', ' ' ]))
      rw [List.map_cons]
      congr 1
      have hpre3 : ∀ n < ([ '\n' ] : Str).length, isPrefixOfCI xmlOpenTag
          (([ '\n' ] : Str).drop n ++ ((t.map xmlItem).flatten ++
            "</transactions>".toList)) = false := by
        rw [xmlOpenTag_cons]
        exact prefixFailCI_of_no_head '<' _ _ _ (by decide)
      have := ih (fun q hq => hks q (List.mem_cons_of_mem _ hq))
        (fun q hq => hvs q (List.mem_cons_of_mem _ hq)) f
        (by simp only [List.length_cons] at hf; omega) [ '\n' ] hpre3
      rw [List.cons_append, List.nil_append] at this
      exact this

/-- XML round trip: under word-character field names whose lower-casing
differs from the item tag, clean trim-invariant values and
duplicate-free keys, `xmlToRecords` inverts `recordsToXml`. -/
theorem xml_round_trip (rs : RecordSet)
    (hks : ∀ r ∈ rs, ∀ p ∈ r,
      (∀ c ∈ p.1, isWordChar c = true) ∧ p.1 ≠ [] ∧
        jsToLower p.1 ≠ "transaction".toList)
    (hvs : ∀ r ∈ rs, ∀ p ∈ r, ∀ c ∈ p.2, c ≠ '&' ∧ c ≠ '<' ∧ c ≠ '>')
    (htrim : ∀ r ∈ rs, ∀ p ∈ r, jsTrim p.2 = p.2)
    (hnd : ∀ r ∈ rs, (keysOf r).Nodup) :
    xmlToRecords (recordsToXml rs) = rs := by
  unfold xmlToRecords
  have hdoc : recordsToXml rs =
      "<?xml version=\"1.0\" encoding=\"UTF-8\"?>\n<transactions>\n".toList ++
        ((rs.map xmlItem).flatten ++ "</transactions>".toList) := by
    rw [recordsToXml, List.append_assoc]
  have hH : ∀ n < ("<?xml version=\"1.0\" encoding=\"UTF-8\"?>\n<transactions>\n".toList).length,
      isPrefixOfCI xmlOpenTag
        (("<?xml version=\"1.0\" encoding=\"UTF-8\"?>\n<transactions>\n".toList).drop n ++
          ((rs.map xmlItem).flatten ++ "</transactions>".toList)) = false := by
    rw [xmlOpenTag_cons]
    exact prefixFailCI_of_checks '<' "transaction>".toList _ _ (by decide)
  have hfuel : rs.length < (recordsToXml rs).length + 1 := by
    rw [hdoc]
    have h1 := length_le_flatten_items rs
    simp only [List.length_append]
    omega
  rw [hdoc, xmlItems_doc rs hks hvs _ (hdoc ▸ hfuel) _ hH, List.map_map]
  have hfix : ∀ r ∈ rs,
      (recOfXmlItem ∘ fun r => '\n' :: ((r.map xmlFieldLine).flatten ++ [ ' ', ' ' ])) r =
        id r := by
    intro r hr
    exact recOfXmlItem_lines r
      (fun p hp => ⟨(hks r hr p hp).1, (hks r hr p hp).2.1⟩)
      (hvs r hr) (htrim r hr) (hnd r hr)
  rw [List.map_congr_left hfix, List.map_id]

/-- C8 counterexample: the claim, read literally, leaves data cells
untrimmed; on the line `1 , 2` the code trims both cells, so the code
and the literal description disagree. -/
theorem C8_counterexample :
    csvToRecords "a,b\n1 , 2".toList ≠ csvSpecLiteral "a,b\n1 , 2".toList ∧
    csvToRecords "a,b\n1 , 2".toList =
      [ [("a".toList, "1".toList), ("b".toList, "2".toList)] ] ∧
    csvSpecLiteral "a,b\n1 , 2".toList =
      [ [("a".toList, "1 ".toList), ("b".toList, " 2".toList)] ] := by
  refine ⟨by decide, by decide, by decide⟩

theorem hexDigitVal_hexDigitChar (n : Nat) (h : n < 16) :
    hexDigitVal (hexDigitChar n) = some n := by
  interval_cases n <;> decide

theorem parseJsonStr_quote (t : Str) : parseJsonStr ('"' :: t) = some ([], t) := rfl

theorem parseJsonStr_escQuote (t : Str) :
    parseJsonStr ('\\' :: '"' :: t) =
      (parseJsonStr t).map (fun p => ('"' :: p.1, p.2)) := rfl

theorem parseJsonStr_escBack (t : Str) :
    parseJsonStr ('\\' :: '\\' :: t) =
      (parseJsonStr t).map (fun p => ('\\' :: p.1, p.2)) := rfl

theorem parseJsonStr_escB (t : Str) :
    parseJsonStr ('\\' :: 'b' :: t) =
      (parseJsonStr t).map (fun p => ('\x08' :: p.1, p.2)) := rfl

theorem parseJsonStr_escT (t : Str) :
    parseJsonStr ('\\' :: 't' :: t) =
      (parseJsonStr t).map (fun p => ('\t' :: p.1, p.2)) := rfl

theorem parseJsonStr_escN (t : Str) :
    parseJsonStr ('\\' :: 'n' :: t) =
      (parseJsonStr t).map (fun p => ('\n' :: p.1, p.2)) := rfl

theorem parseJsonStr_escF (t : Str) :
    parseJsonStr ('\\' :: 'f' :: t) =
      (parseJsonStr t).map (fun p => ('\x0c' :: p.1, p.2)) := rfl

theorem parseJsonStr_escR (t : Str) :
    parseJsonStr ('\\' :: 'r' :: t) =
      (parseJsonStr t).map (fun p => ('\r' :: p.1, p.2)) := rfl

theorem parseJsonStr_uEsc (h1 h2 h3 h4 : Char) (t : Str) :
    parseJsonStr ('\\' :: 'u' :: h1 :: h2 :: h3 :: h4 :: t) =
      match hexDigitVal h1, hexDigitVal h2, hexDigitVal h3, hexDigitVal h4 with
      | some a, some b, some c, some d =>
        (parseJsonStr t).map
          (fun p => (Char.ofNat (4096 * a + 256 * b + 16 * c + d) :: p.1, p.2))
      | _, _, _, _ => none := rfl

set_option maxHeartbeats 1600000 in
theorem parseJsonStr_other (c : Char) (t : Str)
    (hq : c ≠ '"') (hb : c ≠ '\\') (h32 : ¬ c.toNat < 32) :
    parseJsonStr (c :: t) = (parseJsonStr t).map (fun p => (c :: p.1, p.2)) := by
  rw [parseJsonStr.eq_def]
  split <;> simp_all

/-- The string-body scanner inverts `JSON.stringify` escaping. -/
theorem parseJsonStr_escJson (s : Str) :
    ∀ r : Str, parseJsonStr (escJson s ++ '"' :: r) = some (s, r) := by
  induction s with
  | nil => intro r; rfl
  | cons c t ih =>
    intro r
    show parseJsonStr ((escJsonChar c ++ escJson t) ++ '"' :: r) = some (c :: t, r)
    rw [List.append_assoc]
    by_cases h1 : c = '"'
    · subst h1
      show parseJsonStr ('\\' :: '"' :: (escJson t ++ '"' :: r)) = _
      rw [parseJsonStr_escQuote, ih r]
      rfl
    by_cases h2 : c = '\\'
    · subst h2
      show parseJsonStr ('\\' :: '\\' :: (escJson t ++ '"' :: r)) = _
      rw [parseJsonStr_escBack, ih r]
      rfl
    by_cases h3 : c = '\x08'
    · subst h3
      show parseJsonStr ('\\' :: 'b' :: (escJson t ++ '"' :: r)) = _
      rw [parseJsonStr_escB, ih r]
      rfl
    by_cases h4 : c = '\t'
    · subst h4
      show parseJsonStr ('\\' :: 't' :: (escJson t ++ '"' :: r)) = _
      rw [parseJsonStr_escT, ih r]
      rfl
    by_cases h5 : c = '\n'
    · subst h5
      show parseJsonStr ('\\' :: 'n' :: (escJson t ++ '"' :: r)) = _
      rw [parseJsonStr_escN, ih r]
      rfl
    by_cases h6 : c = '\x0c'
    · subst h6
      show parseJsonStr ('\\' :: 'f' :: (escJson t ++ '"' :: r)) = _
      rw [parseJsonStr_escF, ih r]
      rfl
    by_cases h7 : c = '\r'
    · subst h7
      show parseJsonStr ('\\' :: 'r' :: (escJson t ++ '"' :: r)) = _
      rw [parseJsonStr_escR, ih r]
      rfl
    by_cases h8 : c.toNat < 32
    · rw [show escJsonChar c =
          [ '\\', 'u', '0', '0', hexDigitChar (c.toNat / 16), hexDigitChar (c.toNat % 16) ] from by
        rw [escJsonChar, if_neg h1, if_neg h2, if_neg h3, if_neg h4, if_neg h5,
          if_neg h6, if_neg h7, if_pos h8]]
      simp only [List.cons_append, List.nil_append]
      rw [parseJsonStr_uEsc]
      have hz : hexDigitVal '0' = some 0 := rfl
      rw [hz, hexDigitVal_hexDigitChar (c.toNat / 16) (by omega),
        hexDigitVal_hexDigitChar (c.toNat % 16) (by omega)]
      show (parseJsonStr (escJson t ++ '"' :: r)).map
          (fun p => (Char.ofNat (4096 * 0 + 256 * 0 + 16 * (c.toNat / 16) + c.toNat % 16) ::
            p.1, p.2)) = _
      rw [ih r]
      have harith : 4096 * 0 + 256 * 0 + 16 * (c.toNat / 16) + c.toNat % 16 = c.toNat := by
        omega
      rw [harith, Char.ofNat_toNat]
      rfl
    · rw [show escJsonChar c = [c] from by
        rw [escJsonChar, if_neg h1, if_neg h2, if_neg h3, if_neg h4, if_neg h5,
          if_neg h6, if_neg h7, if_neg h8]]
      rw [List.singleton_append, parseJsonStr_other c _ h1 h2 h8, ih r]
      rfl

theorem parseJsonMembers_start (fuel : Nat) (t : Str) (acc : Rec) :
    parseJsonMembers (fuel + 1) ('"' :: t) acc =
      match parseJsonStr t with
      | none => none
      | some (k, r1) =>
        match skipWs r1 with
        | ':' :: r2 =>
          match skipWs r2 with
          | '"' :: r3 =>
            match parseJsonStr r3 with
            | none => none
            | some (v, r4) =>
              match skipWs r4 with
              | ',' :: r5 => parseJsonMembers fuel (skipWs r5) (jsSetV acc k v)
              | '}' :: r5 => some (jsSetV acc k v, r5)
              | _ => none
          | _ => none
        | _ => none := rfl

/-- One printed `"key": "value"` member advances the member loop exactly
one step. -/
theorem parseJsonMembers_one (fuel : Nat) (k v : Str) (acc : Rec) (rest : Str) :
    parseJsonMembers (fuel + 1)
      ('"' :: (escJson k ++ '"' :: ':' :: ' ' :: '"' :: (escJson v ++ '"' :: rest))) acc =
      match skipWs rest with
      | ',' :: r5 => parseJsonMembers fuel (skipWs r5) (jsSetV acc k v)
      | '}' :: r5 => some (jsSetV acc k v, r5)
      | _ => none := by
  rw [parseJsonMembers_start,
    parseJsonStr_escJson k (':' :: ' ' :: '"' :: (escJson v ++ '"' :: rest))]
  have h1 : skipWs (':' :: ' ' :: '"' :: (escJson v ++ '"' :: rest)) =
      ':' :: ' ' :: '"' :: (escJson v ++ '"' :: rest) := rfl
  have h2 : skipWs (' ' :: '"' :: (escJson v ++ '"' :: rest)) =
      '"' :: (escJson v ++ '"' :: rest) := rfl
  simp only [h1, h2, parseJsonStr_escJson v rest]

theorem members_cons_shape (q : Str × Str) (u : Rec) (z : Str) :
    ∃ w : Str,
      List.intercalate [ ',', '\n', ' ', ' ', ' ', ' ' ] ((q :: u).map jsonMember) ++ z =
        '"' :: w := by
  cases u with
  | nil =>
    refine ⟨escJson q.1 ++ '"' :: ':' :: ' ' :: '"' :: (escJson q.2 ++ '"' :: z), ?_⟩
    rw [List.map_cons, List.map_nil, intercalate_one]
    simp [jsonMember, jsonQuoted, List.append_assoc]
  | cons q2 u2 =>
    refine ⟨escJson q.1 ++ '"' :: ':' :: ' ' :: '"' :: (escJson q.2 ++ '"' ::
      (',' :: '\n' :: ' ' :: ' ' :: ' ' :: ' ' ::
        (List.intercalate [ ',', '\n', ' ', ' ', ' ', ' ' ] ((q2 :: u2).map jsonMember) ++
          z))), ?_⟩
    rw [List.map_cons, List.map_cons, intercalate_two]
    simp [jsonMember, jsonQuoted, List.append_assoc]

/-- The member loop consumes a printed member list up to the closing
brace, folding JS object assignment over the printed pairs. -/
theorem parseJsonMembers_print (r : Rec) :
    ∀ fuel, r.length < fuel → r ≠ [] → ∀ (acc : Rec) (after : Str),
      parseJsonMembers fuel
        (List.intercalate [ ',', '\n', ' ', ' ', ' ', ' ' ] (r.map jsonMember) ++
          ('\n' :: ' ' :: ' ' :: '}' :: after)) acc =
        some (r.foldl (fun o p => jsSetV o p.1 p.2) acc, after) := by
  induction r with
  | nil => intro _ _ hne; exact absurd rfl hne
  | cons p t ih =>
    intro fuel hf _ acc after
    obtain ⟨k, v⟩ := p
    cases fuel with
    | zero => omega
    | succ f =>
      cases t with
      | nil =>
        have hsh : List.intercalate [ ',', '\n', ' ', ' ', ' ', ' ' ]
            ([(k, v)].map jsonMember) ++ ('\n' :: ' ' :: ' ' :: '}' :: after) =
            '"' :: (escJson k ++ '"' :: ':' :: ' ' :: '"' ::
              (escJson v ++ '"' :: ('\n' :: ' ' :: ' ' :: '}' :: after))) := by
          rw [List.map_cons, List.map_nil, intercalate_one]
          simp [jsonMember, jsonQuoted, List.append_assoc]
        rw [hsh, parseJsonMembers_one]
        have hskip : skipWs ('\n' :: ' ' :: ' ' :: '}' :: after) = '}' :: after := rfl
        rw [hskip]
        rfl
      | cons q u =>
        have hsh : List.intercalate [ ',', '\n', ' ', ' ', ' ', ' ' ]
            (((k, v) :: q :: u).map jsonMember) ++ ('\n' :: ' ' :: ' ' :: '}' :: after) =
            '"' :: (escJson k ++ '"' :: ':' :: ' ' :: '"' ::
              (escJson v ++ '"' :: (',' :: '\n' :: ' ' :: ' ' :: ' ' :: ' ' ::
                (List.intercalate [ ',', '\n', ' ', ' ', ' ', ' ' ]
                  ((q :: u).map jsonMember) ++
                    ('\n' :: ' ' :: ' ' :: '}' :: after))))) := by
          rw [List.map_cons, List.map_cons, intercalate_two]
          simp [jsonMember, jsonQuoted, List.append_assoc]
        rw [hsh, parseJsonMembers_one]
        have hskip : skipWs (',' :: '\n' :: ' ' :: ' ' :: ' ' :: ' ' ::
            (List.intercalate [ ',', '\n', ' ', ' ', ' ', ' ' ]
              ((q :: u).map jsonMember) ++ ('\n' :: ' ' :: ' ' :: '}' :: after))) =
            ',' :: '\n' :: ' ' :: ' ' :: ' ' :: ' ' ::
              (List.intercalate [ ',', '\n', ' ', ' ', ' ', ' ' ]
                ((q :: u).map jsonMember) ++ ('\n' :: ' ' :: ' ' :: '}' :: after)) := rfl
        rw [hskip]
        show parseJsonMembers f (skipWs ('\n' :: ' ' :: ' ' :: ' ' :: ' ' ::
            (List.intercalate [ ',', '\n', ' ', ' ', ' ', ' ' ]
              ((q :: u).map jsonMember) ++ ('\n' :: ' ' :: ' ' :: '}' :: after))))
            (jsSetV acc k v) =
          some ((((k, v) :: q :: u).foldl (fun o p => jsSetV o p.1 p.2) acc), after)
        obtain ⟨w, hw⟩ := members_cons_shape q u ('\n' :: ' ' :: ' ' :: '}' :: after)
        have hskip2 : skipWs ('\n' :: ' ' :: ' ' :: ' ' :: ' ' ::
            (List.intercalate [ ',', '\n', ' ', ' ', ' ', ' ' ]
              ((q :: u).map jsonMember) ++ ('\n' :: ' ' :: ' ' :: '}' :: after))) =
            List.intercalate [ ',', '\n', ' ', ' ', ' ', ' ' ]
              ((q :: u).map jsonMember) ++ ('\n' :: ' ' :: ' ' :: '}' :: after) := by
          rw [hw]
          rfl
        rw [hskip2, List.foldl_cons]
        exact ih f (by simp only [List.length_cons] at hf ⊢; omega) (by simp)
          (jsSetV acc k v) after

theorem parseJsonRecord_brace (fuel : Nat) (t : Str) :
    parseJsonRecord fuel ('{' :: t) =
      match skipWs t with
      | '}' :: r => some ([], r)
      | t2 => parseJsonMembers fuel t2 [] := rfl

theorem parseJsonRecord_at (fuel : Nat) (t w : Str) (hsk : skipWs t = '"' :: w) :
    parseJsonRecord fuel ('{' :: t) = parseJsonMembers fuel ('"' :: w) [] := by
  rw [parseJsonRecord_brace, hsk]
  rfl

/-- The record reader consumes one printed record. -/
theorem parseJsonRecord_print (r : Rec) (fuel : Nat) (hf : r.length < fuel) (after : Str) :
    parseJsonRecord fuel (jsonRecordStr r ++ after) =
      some (r.foldl (fun o p => jsSetV o p.1 p.2) [], after) := by
  cases r with
  | nil => rfl
  | cons p t =>
    have hsh : jsonRecordStr (p :: t) ++ after =
        '{' :: ('\n' :: ' ' :: ' ' :: ' ' :: ' ' ::
          (List.intercalate [ ',', '\n', ' ', ' ', ' ', ' ' ] ((p :: t).map jsonMember) ++
            ('\n' :: ' ' :: ' ' :: '}' :: after))) := by
      simp [jsonRecordStr, List.append_assoc]
    obtain ⟨w, hw⟩ := members_cons_shape p t ('\n' :: ' ' :: ' ' :: '}' :: after)
    have hsk : skipWs ('\n' :: ' ' :: ' ' :: ' ' :: ' ' ::
        (List.intercalate [ ',', '\n', ' ', ' ', ' ', ' ' ] ((p :: t).map jsonMember) ++
          ('\n' :: ' ' :: ' ' :: '}' :: after))) = '"' :: w := by
      rw [hw]
      rfl
    rw [hsh, parseJsonRecord_at fuel _ w hsk, ← hw]
    exact parseJsonMembers_print (p :: t) fuel hf (by simp) [] after

theorem parseJsonElems_one (fuel : Nat) (s : Str) (acc : RecordSet) :
    parseJsonElems (fuel + 1) s acc =
      match parseJsonRecord fuel s with
      | none => none
      | some (r, rest) =>
        match skipWs rest with
        | ',' :: r2 => parseJsonElems fuel (skipWs r2) (acc ++ [r])
        | ']' :: r2 => some (acc ++ [r], r2)
        | _ => none := rfl

theorem records_cons_shape (r : Rec) (t : RecordSet) (z : Str) :
    ∃ w : Str,
      List.intercalate [ ',', '\n', ' ', ' ' ] ((r :: t).map jsonRecordStr) ++ z =
        '{' :: w := by
  obtain ⟨w0, hw0⟩ : ∃ w0, jsonRecordStr r = '{' :: w0 := by
    cases r with
    | nil => exact ⟨[ '}' ], rfl⟩
    | cons p q =>
      refine ⟨'\n' :: ' ' :: ' ' :: ' ' :: ' ' ::
        (List.intercalate [ ',', '\n', ' ', ' ', ' ', ' ' ] ((p :: q).map jsonMember) ++
          ('\n' :: ' ' :: ' ' :: '}' :: [])), ?_⟩
      simp [jsonRecordStr, List.append_assoc]
  cases t with
  | nil =>
    refine ⟨w0 ++ z, ?_⟩
    rw [List.map_cons, List.map_nil, intercalate_one, hw0, List.cons_append]
  | cons r2 t2 =>
    refine ⟨w0 ++ (',' :: '\n' :: ' ' :: ' ' ::
      (List.intercalate [ ',', '\n', ' ', ' ' ] ((r2 :: t2).map jsonRecordStr) ++ z)), ?_⟩
    rw [List.map_cons, List.map_cons, intercalate_two, hw0]
    simp [List.append_assoc]

/-- The element loop consumes a printed record list up to the closing
bracket, appending each parsed record. -/
theorem parseJsonElems_print (rs : RecordSet) :
    ∀ fuel, ((rs.map (fun x => x.length + 1)).sum) < fuel → rs ≠ [] →
      ∀ (acc : RecordSet) (after : Str),
      parseJsonElems fuel
        (List.intercalate [ ',', '\n', ' ', ' ' ] (rs.map jsonRecordStr) ++
          ('\n' :: ']' :: after)) acc =
        some (acc ++ rs.map (fun r => r.foldl (fun o p => jsSetV o p.1 p.2) []), after) := by
  induction rs with
  | nil => intro _ _ hne; exact absurd rfl hne
  | cons r t ih =>
    intro fuel hf _ acc after
    cases fuel with
    | zero => omega
    | succ f =>
      have hr : r.length < f := by
        simp only [List.map_cons, List.sum_cons] at hf
        omega
      cases t with
      | nil =>
        have hsh : List.intercalate [ ',', '\n', ' ', ' ' ] ([r].map jsonRecordStr) ++
            ('\n' :: ']' :: after) = jsonRecordStr r ++ ('\n' :: ']' :: after) := by
          rw [List.map_cons, List.map_nil, intercalate_one]
        have hskip : skipWs ('\n' :: ']' :: after) = ']' :: after := rfl
        rw [hsh]
        simp only [parseJsonElems_one, parseJsonRecord_print r f hr _, hskip]
        rfl
      | cons q u =>
        have hsh : List.intercalate [ ',', '\n', ' ', ' ' ] (((r :: q :: u)).map jsonRecordStr) ++
            ('\n' :: ']' :: after) =
            jsonRecordStr r ++ (',' :: '\n' :: ' ' :: ' ' ::
              (List.intercalate [ ',', '\n', ' ', ' ' ] ((q :: u).map jsonRecordStr) ++
                ('\n' :: ']' :: after))) := by
          rw [List.map_cons, List.map_cons, intercalate_two]
          simp [List.append_assoc]
        have hskip1 : skipWs (',' :: '\n' :: ' ' :: ' ' ::
            (List.intercalate [ ',', '\n', ' ', ' ' ] ((q :: u).map jsonRecordStr) ++
              ('\n' :: ']' :: after))) =
            ',' :: '\n' :: ' ' :: ' ' ::
              (List.intercalate [ ',', '\n', ' ', ' ' ] ((q :: u).map jsonRecordStr) ++
                ('\n' :: ']' :: after)) := rfl
        obtain ⟨w, hw⟩ := records_cons_shape q u ('\n' :: ']' :: after)
        have hskip2 : skipWs ('\n' :: ' ' :: ' ' ::
            (List.intercalate [ ',', '\n', ' ', ' ' ] ((q :: u).map jsonRecordStr) ++
              ('\n' :: ']' :: after))) =
            List.intercalate [ ',', '\n', ' ', ' ' ] ((q :: u).map jsonRecordStr) ++
              ('\n' :: ']' :: after) := by
          rw [hw]
          rfl
        rw [hsh]
        simp only [parseJsonElems_one, parseJsonRecord_print r f hr _, hskip1]
        show parseJsonElems f (skipWs ('\n' :: ' ' :: ' ' ::
            (List.intercalate [ ',', '\n', ' ', ' ' ] ((q :: u).map jsonRecordStr) ++
              ('\n' :: ']' :: after))))
            (acc ++ [ r.foldl (fun o p => jsSetV o p.1 p.2) [] ]) = _
        rw [hskip2, ih f (by simp only [List.map_cons, List.sum_cons] at hf ⊢; omega)
          (by simp) (acc ++ [ r.foldl (fun o p => jsSetV o p.1 p.2) [] ]) after]
        simp [List.append_assoc]

theorem length_le_intercalate (sep : Str) :
    ∀ xs : List Str, (∀ x ∈ xs, 1 ≤ x.length) →
      xs.length ≤ (List.intercalate sep xs).length := by
  intro xs
  induction xs with
  | nil => intro _; simp
  | cons x t ih =>
    intro h
    cases t with
    | nil =>
      rw [intercalate_one]
      have := h x (List.mem_cons_self _ _)
      simp only [List.length_cons, List.length_nil]
      omega
    | cons y u =>
      rw [intercalate_two]
      have h1 := h x (List.mem_cons_self _ _)
      have h2 := ih (fun z hz => h z (List.mem_cons_of_mem _ hz))
      simp only [List.length_cons, List.length_append] at h2 ⊢
      omega

theorem jsonMember_length_pos (p : Str × Str) : 1 ≤ (jsonMember p).length := by
  rw [jsonMember, jsonQuoted, jsonQuoted]
  simp

theorem jsonRecordStr_length (r : Rec) : r.length + 2 ≤ (jsonRecordStr r).length := by
  cases r with
  | nil => decide
  | cons p t =>
    have hsh : jsonRecordStr (p :: t) =
        '{' :: ('\n' :: ' ' :: ' ' :: ' ' :: ' ' ::
          (List.intercalate [ ',', '\n', ' ', ' ', ' ', ' ' ] ((p :: t).map jsonMember) ++
            ('\n' :: ' ' :: ' ' :: '}' :: []))) := by
      simp [jsonRecordStr, List.append_assoc]
    rw [hsh]
    have h1 := length_le_intercalate [ ',', '\n', ' ', ' ', ' ', ' ' ]
      ((p :: t).map jsonMember) (by
        intro x hx
        obtain ⟨q, _, hq⟩ := List.mem_map.mp hx
        rw [← hq]
        exact jsonMember_length_pos q)
    simp only [List.length_cons, List.length_append, List.length_map] at h1 ⊢
    omega

theorem sum_le_intercalate_records (rs : RecordSet) :
    ((rs.map (fun x => x.length + 1)).sum) ≤
      (List.intercalate [ ',', '\n', ' ', ' ' ] (rs.map jsonRecordStr)).length := by
  induction rs with
  | nil => simp
  | cons r t ih =>
    cases t with
    | nil =>
      rw [List.map_cons, List.map_nil, List.sum_cons, List.map_cons, List.map_nil,
        intercalate_one]
      have := jsonRecordStr_length r
      simp only [List.map_nil, List.sum_nil]
      omega
    | cons q u =>
      have h1 := jsonRecordStr_length r
      simp only [List.map_cons, List.sum_cons] at ih ⊢
      rw [intercalate_two]
      simp only [List.length_append]
      omega

/-- JSON round trip: `jsonParseRecords` inverts `jsonStringifyRecords`
on any RecordSet whose records have duplicate-free keys. -/
theorem json_round_trip (rs : RecordSet)
    (hnd : ∀ r ∈ rs, (keysOf r).Nodup) :
    jsonParseRecords (jsonStringifyRecords rs) = Except.ok rs := by
  cases rs with
  | nil => rfl
  | cons r t =>
    have hsh : jsonStringifyRecords (r :: t) =
        '[' :: ('\n' :: ' ' :: ' ' ::
          (List.intercalate [ ',', '\n', ' ', ' ' ] ((r :: t).map jsonRecordStr) ++
            ('\n' :: ']' :: []))) := by
      simp [jsonStringifyRecords, List.append_assoc]
    obtain ⟨w, hw⟩ := records_cons_shape r t ('\n' :: ']' :: [])
    have hs1 : skipWs (jsonStringifyRecords (r :: t)) =
        '[' :: ('\n' :: ' ' :: ' ' ::
          (List.intercalate [ ',', '\n', ' ', ' ' ] ((r :: t).map jsonRecordStr) ++
            ('\n' :: ']' :: []))) := by
      rw [hsh]
      rfl
    have hs2 : skipWs ('\n' :: ' ' :: ' ' ::
        (List.intercalate [ ',', '\n', ' ', ' ' ] ((r :: t).map jsonRecordStr) ++
          ('\n' :: ']' :: []))) = '{' :: w := by
      rw [hw]
      rfl
    have hfu : (((r :: t).map (fun x => x.length + 1)).sum) <
        (jsonStringifyRecords (r :: t)).length + 1 := by
      have h1 := sum_le_intercalate_records (r :: t)
      rw [hsh]
      simp only [List.length_cons, List.length_append] at h1 ⊢
      omega
    have he : parseJsonElems ((jsonStringifyRecords (r :: t)).length + 1)
        ('{' :: w) [] =
        some ([] ++ (r :: t).map (fun x => x.foldl (fun o p => jsSetV o p.1 p.2) []), []) := by
      rw [← hw]
      exact parseJsonElems_print (r :: t) _ hfu (by simp) [] []
    rw [jsonParseRecords, hs1]
    show (match skipWs ('\n' :: ' ' :: ' ' ::
        (List.intercalate [ ',', '\n', ' ', ' ' ] ((r :: t).map jsonRecordStr) ++
          ('\n' :: ']' :: []))) with
      | ']' :: rr =>
        if skipWs rr = [] then Except.ok []
        else Except.error "unexpected text after the document".toList
      | t2 =>
        match parseJsonElems ((jsonStringifyRecords (r :: t)).length + 1) t2 [] with
        | some (rs2, rest) =>
          if skipWs rest = [] then Except.ok rs2
          else Except.error "unexpected text after the document".toList
        | none => Except.error "malformed structured document".toList) = Except.ok (r :: t)
    rw [hs2]
    show (match parseJsonElems ((jsonStringifyRecords (r :: t)).length + 1)
        ('{' :: w) [] with
      | some (rs2, rest) =>
        if skipWs rest = [] then Except.ok rs2
        else Except.error "unexpected text after the document".toList
      | none => Except.error "malformed structured document".toList) = Except.ok (r :: t)
    rw [he]
    show (if skipWs ([] : Str) = [] then
        Except.ok ([] ++ (r :: t).map (fun x => x.foldl (fun o p => jsSetV o p.1 p.2) []))
      else Except.error "unexpected text after the document".toList) = Except.ok (r :: t)
    have hnilws : skipWs ([] : Str) = [] := rfl
    rw [if_pos hnilws, List.nil_append]
    have hfix : ∀ x ∈ r :: t,
        (fun x => x.foldl (fun o p => jsSetV o p.1 p.2) ([] : Rec)) x = id x := by
      intro x hx
      show x.foldl (fun o p => jsSetV o p.1 p.2) [] = x
      rw [foldl_jsSetV_fresh x [] (fun k _ => by simp [keysOf]) (hnd x hx),
        List.nil_append]
    rw [List.map_congr_left hfix, List.map_id]

/-- C4 (amended): for a RecordSet with a uniform, duplicate-free set of
nonempty word-character field names none of which lower-cases to the
item tag `transaction` (the item tags are matched case-insensitively),
whose values contain no comma, no newline, no markup-special character
and no leading or trailing whitespace, and with at least two fields or
no empty value, both the delimited-text (CSV) and the tagged-markup
(XML) round trips return the original RecordSet. -/
theorem C4_text_round_trips (rs : RecordSet) (hs : List Str)
    (hkeys : ∀ r ∈ rs, keysOf r = hs)
    (hhs : hs ≠ [])
    (hnd : hs.Nodup)
    (hword : ∀ k ∈ hs, k ≠ [] ∧ (∀ c ∈ k, isWordChar c = true) ∧
      jsToLower k ≠ "transaction".toList)
    (hval : ∀ r ∈ rs, ∀ p ∈ r,
      (',' ∉ p.2 ∧ '\n' ∉ p.2 ∧ '&' ∉ p.2 ∧ '<' ∉ p.2 ∧ '>' ∉ p.2) ∧ jsTrim p.2 = p.2)
    (hrow : 1 < hs.length ∨ ∀ r ∈ rs, ∀ p ∈ r, p.2 ≠ []) :
    csvToRecords (recordsToCsv rs) = rs ∧ xmlToRecords (recordsToXml rs) = rs := by
  constructor
  · exact csv_round_trip rs hs hkeys hhs hnd
      (fun k hk => ⟨(hword k hk).1, (hword k hk).2.1⟩)
      (fun r hr p hp =>
        ⟨⟨(hval r hr p hp).1.1, (hval r hr p hp).1.2.1⟩, (hval r hr p hp).2⟩)
      hrow
  · apply xml_round_trip rs
    · intro r hr p hp
      have hkmem : p.1 ∈ hs := by
        rw [← hkeys r hr]
        exact List.mem_map_of_mem Prod.fst hp
      obtain ⟨h1, h2, h3⟩ := hword p.1 hkmem
      exact ⟨h2, h1, h3⟩
    · intro r hr p hp c hc
      obtain ⟨⟨_, _, ha, hl, hg⟩, _⟩ := hval r hr p hp
      exact ⟨fun he => ha (he ▸ hc), fun he => hl (he ▸ hc), fun he => hg (he ▸ hc)⟩
    · intro r hr p hp
      exact (hval r hr p hp).2
    · intro r hr
      rw [hkeys r hr]
      exact hnd

theorem C4_text_round_trips_witness :
    csvToRecords (recordsToCsv
      [ [("id".toList, "1".toList), ("amount".toList, "25".toList)],
        [("id".toList, "2".toList), ("amount".toList, "40".toList)] ]) =
      [ [("id".toList, "1".toList), ("amount".toList, "25".toList)],
        [("id".toList, "2".toList), ("amount".toList, "40".toList)] ] ∧
    xmlToRecords (recordsToXml
      [ [("id".toList, "1".toList), ("amount".toList, "25".toList)],
        [("id".toList, "2".toList), ("amount".toList, "40".toList)] ]) =
      [ [("id".toList, "1".toList), ("amount".toList, "25".toList)],
        [("id".toList, "2".toList), ("amount".toList, "40".toList)] ] :=
  C4_text_round_trips
    [ [("id".toList, "1".toList), ("amount".toList, "25".toList)],
      [("id".toList, "2".toList), ("amount".toList, "40".toList)] ]
    [ "id".toList, "amount".toList ]
    (by decide) (by decide) (by decide) (by decide) (by decide) (by decide)

/-- C4 counterexample: the RecordSet `[[(a, " x")]]` has a uniform field
set and values free of commas and markup-special characters, yet both
text round trips return the trimmed `[[(a, "x")]]`, not the original:
the claim omits the trimming both parsers apply to values. -/
theorem C4_counterexample :
    (∀ r ∈ [ [("a".toList, " x".toList)] ], keysOf r = [ "a".toList ]) ∧
    (∀ r ∈ [ [("a".toList, " x".toList)] ], ∀ p ∈ r,
      ',' ∉ p.2 ∧ '&' ∉ p.2 ∧ '<' ∉ p.2 ∧ '>' ∉ p.2) ∧
    csvToRecords (recordsToCsv [ [("a".toList, " x".toList)] ]) ≠
      [ [("a".toList, " x".toList)] ] ∧
    xmlToRecords (recordsToXml [ [("a".toList, " x".toList)] ]) ≠
      [ [("a".toList, " x".toList)] ] := by
  refine ⟨by decide, by decide, by decide, by decide⟩

/-- C3: for every RecordSet whose records share a uniform field set,
serializing to the structured-document (JSON) format with
`JSON.stringify(records, null, 2)` and parsing the result back yields
a RecordSet equal to the original. -/
theorem C3_structured_round_trip (rs : RecordSet) (hs : List Str)
    (hkeys : ∀ r ∈ rs, keysOf r = hs) (hnd : hs.Nodup) :
    jsonParseRecords (jsonStringifyRecords rs) = Except.ok rs :=
  json_round_trip rs (fun r hr => by rw [hkeys r hr]; exact hnd)

theorem C3_structured_round_trip_witness :
    jsonParseRecords (jsonStringifyRecords
      [ [("a".toList, "1".toList)], [("a".toList, "2".toList)] ]) =
      Except.ok [ [("a".toList, "1".toList)], [("a".toList, "2".toList)] ] :=
  C3_structured_round_trip
    [ [("a".toList, "1".toList)], [("a".toList, "2".toList)] ]
    [ "a".toList ] (by decide) (by decide)

end Demo
